import Mathlib

/-!
Verification development for the translation synchronization engine of the
adapter-dev repository (src/build/translate-adapter-handlers.js).

JavaScript objects with string keys are modelled as association lists in
insertion order (`jsGet` is property lookup, `jsSet` is property assignment:
it updates an existing key in place and appends a fresh key at the end,
exactly like JS object assignment preserves key insertion order).
JS string truthiness for optional string values is modelled by `truthy`
(absent and the empty string are falsy).
-/

/-- A JS object whose property values have type α, in key insertion order. -/
abbrev JsObj (α : Type) := List (String × α)

/-- A flat translation file: TranslationKey to string (JS object). -/
abbrev Obj := JsObj String

/-- A TranslationEntry: language code to string (JS object). -/
abbrev Entry := JsObj String

/-- A WordDictionary: TranslationKey to TranslationEntry (JS object). -/
abbrev Dict := JsObj Entry

/-- JS property read `o[k]`: `none` models `undefined`. -/
def jsGet {α : Type} : JsObj α → String → Option α
  | [], _ => none
  | (k', v) :: rest, k => if k' = k then some v else jsGet rest k

/-- JS property write `o[k] = v`: update in place, or append a fresh key. -/
def jsSet {α : Type} : JsObj α → String → α → JsObj α
  | [], k, v => [(k, v)]
  | (k', v') :: rest, k, v =>
      if k' = k then (k, v) :: rest else (k', v') :: jsSet rest k v

/-- JS truthiness of an optional string: `undefined` and `""` are falsy. -/
def truthy : Option String → Bool
  | none => false
  | some s => !(s = "")

/-- `getLanguages()`: the keys of the fixed `_languages` record, in order. -/
def getLanguages : List String :=
  ["en", "de", "ru", "pt", "nl", "fr", "it", "es", "pl", "zh-cn"]

/-- `createEmptyLangObject(createDefault)`: one entry per supported language
(the reduce over `getLanguages()` appends the keys in language order). -/
def createEmptyLangObject {α : Type} (default : α) : JsObj α :=
  getLanguages.map (fun l => (l, default))



/-! ## FilePatternDeriver (`createFilePattern`) -/

/-- The JS `\w` character class: ASCII letters, digits, and underscore. -/
def isWordChar (c : Char) : Bool :=
  (Char.ofNat 97 ≤ c && c ≤ Char.ofNat 122) ||
  (Char.ofNat 65 ≤ c && c ≤ Char.ofNat 90) ||
  (Char.ofNat 48 ≤ c && c ≤ Char.ofNat 57) || c = Char.ofNat 95

/-- Does `/\Wen\W/` match at the very start of the character list? -/
def isWenWAt : List Char → Bool
  | c1 :: e :: n :: c2 :: _ =>
      e = 'e' && n = 'n' && !isWordChar c1 && !isWordChar c2
  | _ => false

/-- `baseFile.match(/\Wen\W/)`: regex search — does the pattern match at some
position of the character list? -/
def matchWenW : List Char → Bool
  | [] => false
  | c :: rest => isWenWAt (c :: rest) || matchWenW rest

/-- The derived pattern, holding the text before and after the first
boundary-delimited `en` token (the replace `(?<=\W)en(?=\W)` keeps the two
delimiter characters with the prefix and suffix; `escapeRegExp` only inserts
backslashes before regex-special characters, all of which are non-word, so
boundary-delimited `en` occurrences of the escaped text and of the original
filename coincide and the split is taken on the original filename). -/
structure FilePattern where
  pre : List Char
  suf : List Char
deriving DecidableEq, Repr

/-- Split at the first boundary-delimited `en` occurrence. -/
def splitWenW : List Char → Option (List Char × List Char)
  | [] => none
  | c1 :: rest =>
      if isWenWAt (c1 :: rest) then
        match rest with
        | _ :: _ :: c2 :: rest2 => some ([c1], c2 :: rest2)
        | _ => none
      else (splitWenW rest).map (fun pr => (c1 :: pr.1, pr.2))

/-- `createFilePattern(baseFile)`: throws ("Base file must be an English JSON
file") unless the name matches `/\Wen\W/`; otherwise the pattern splits the
name around the first boundary-delimited `en`. -/
def createFilePattern (baseFile : List Char) : Option FilePattern :=
  if !matchWenW baseFile then none
  else (splitWenW baseFile).map (fun pr => ⟨pr.1, pr.2⟩)

/-! ## MergeEngine (a): `translateNotExisting` -/

/-- `const text = obj.en || baseText`. -/
def srcText (obj : Obj) (baseText : Option String) : Option String :=
  if truthy (jsGet obj "en") then jsGet obj "en" else baseText

/-- The language loop of `translateNotExisting`: `if (!obj[lang]) obj[lang] =
await translateText(text, lang)`, recording the `(text, lang)` calls. -/
def translateLoop (tr : String → String → String) (text : String)
    (acc : Obj × List (String × String)) (langs : List String) :
    Obj × List (String × String) :=
  langs.foldl
    (fun acc lang =>
      if truthy (jsGet acc.1 lang) then acc
      else (jsSet acc.1 lang (tr text lang), acc.2 ++ [(text, lang)]))
    acc

/-- `translateNotExisting(obj, baseText)` over an abstract translation
capability `tr text lang`.  Returns the updated entry together with the list
of `(text, lang)` arguments passed to the capability, in call order. -/
def translateNotExisting (tr : String → String → String) (obj : Obj)
    (baseText : Option String) : Obj × List (String × String) :=
  match srcText obj baseText with
  | none => (obj, [])
  | some text =>
      if text = "" then (obj, [])
      else translateLoop tr text (obj, []) getLanguages

/-! ## MergeEngine (b): `translateI18nJson` / `translateI18n` -/

/-- The key loop of `translateI18nJson`: for every `[t, base]` of the base
content, `if (!content[t]) content[t] = await translateText(base, lang)`.
Calls to the translation capability are recorded as `(key, lang)` pairs (the
text passed to the capability is the base value of that key). -/
def fillLoop (tr : String → String → String) (lang : String)
    (acc : Obj × List (String × String)) (baseContent : Obj) :
    Obj × List (String × String) :=
  baseContent.foldl
    (fun acc kv =>
      if truthy (jsGet acc.1 kv.1) then acc
      else (jsSet acc.1 kv.1 (tr kv.2 lang), acc.2 ++ [(kv.1, lang)]))
    acc

/-- The content part of `fillLoop` (the call list does not influence it). -/
def fillFst (tr : String → String → String) (lang : String) (content : Obj)
    (baseContent : Obj) : Obj :=
  baseContent.foldl
    (fun c kv =>
      if truthy (jsGet c kv.1) then c else jsSet c kv.1 (tr kv.2 lang))
    content

/-- `translateI18nJson(content, lang, baseContent)`: no-op for `en`, otherwise
fill every base key whose current value is falsy with the translated base
value. -/
def translateI18nJson (tr : String → String → String) (content : Obj)
    (lang : String) (baseContent : Obj) : Obj × List (String × String) :=
  if lang = "en" then (content, [])
  else fillLoop tr lang (content, []) baseContent

/-- The filesystem state `translateI18n` sees, per language: `files l` is the
content of the JSON file at the path obtained from the base path by
substituting `l` (for `en` this path is the base file itself), and
`discovered l` says whether the glob under the admin directory found that
file (files outside the admin directory, or not ending in `.json`, exist but
are not discovered).  A discovered file exists on disk, so theorems assume
`discovered l → (files l).isSome`; the model returns `([], [])` on the
unreachable opposite case. -/
structure I18nState where
  files : String → Option Obj
  discovered : String → Bool

/-- One language's file after `translateI18n`: discovered files are updated
in place (`en` is skipped), languages without a discovered file get a fresh
object filled from scratch (which for `en` stays empty, since
`translateI18nJson` returns immediately) written to the generated filename. -/
def translateI18nLang (tr : String → String → String) (base : Obj)
    (st : I18nState) (lang : String) : Obj × List (String × String) :=
  if st.discovered lang then
    match st.files lang with
    | some content =>
        if lang = "en" then (content, [])
        else translateI18nJson tr content lang base
    | none => ([], [])
  else translateI18nJson tr [] lang base

/-- The per-path file contents after `translateI18n`: each supported
language's file holds its `translateI18nLang` result (discovered files
updated in place, the others written at the generated sibling path); every
other path is untouched. -/
def translateI18nFiles (tr : String → String → String) (base : Obj)
    (st : I18nState) : String → Option Obj :=
  fun lang =>
    if lang ∈ getLanguages then some (translateI18nLang tr base st lang).1
    else st.files lang

/-- All translation calls of one `translateI18n` run, grouped by language
(the glob's file order is unspecified, so call order across languages is a
canonical choice; each language only touches its own file). -/
def translateI18nCalls (tr : String → String → String) (base : Obj)
    (st : I18nState) : List (String × String) :=
  (getLanguages.map (fun lang => (translateI18nLang tr base st lang).2)).flatten

/-- `translateI18n(baseFile)`: reads the base content from the base file
(`none` when that read fails), then processes every language file. -/
def translateI18n (tr : String → String → String) (st : I18nState) :
    Option ((String → Option Obj) × List (String × String)) :=
  match st.files "en" with
  | none => none
  | some base =>
      some (translateI18nFiles tr base st, translateI18nCalls tr base st)

/-- The filesystem state a second `translateI18n` run sees when the first
run's base file was among the discovered files: every language file now
exists at its sibling path under the admin directory, so the second run's
glob discovers them all. -/
def rerunState (tr : String → String → String) (base : Obj)
    (st : I18nState) : I18nState :=
  ⟨translateI18nFiles tr base st, fun _ => true⟩

/-! ## MergeEngine (c): `adminLanguages2words` and `adminWords2languages` -/

/-- The body of the discovery loop of `adminLanguages2words` for one key of
one discovered file: `newWords[key] = newWords[key] || createEmptyLangObject(() => "");
newWords[key][lang] = translations[key];` -/
def words2Step (lang : String) (nw : Dict) (kv : String × String) : Dict :=
  let entry := (jsGet nw kv.1).getD (createEmptyLangObject "")
  jsSet nw kv.1 (jsSet entry lang kv.2)

/-- The dictionary built from all discovered language files (first half of
`adminLanguages2words`). -/
def buildNewWords (st : I18nState) : Dict :=
  getLanguages.foldl
    (fun nw lang =>
      if st.discovered lang then
        match st.files lang with
        | some translations => translations.foldl (words2Step lang) nw
        | none => nw
      else nw)
    []

/-- The warnings `adminLanguages2words` prints while reconciling. -/
inductive Warn where
  | take (key : String)
  | missing (lang : String) (key : String)
deriving DecidableEq, Repr

/-- One step of the reconciliation loop over the existing dictionary:
keys absent from the new dictionary are taken over verbatim with a warning,
then every language whose value for this key is falsy is warned about. -/
def reconcileStep (acc : Dict × List Warn) (kv : String × Entry) :
    Dict × List Warn :=
  let nw := if (jsGet acc.1 kv.1).isSome then acc.1 else jsSet acc.1 kv.1 kv.2
  let ws := if (jsGet acc.1 kv.1).isSome then acc.2 else acc.2 ++ [Warn.take kv.1]
  let entry := (jsGet nw kv.1).getD []
  (nw, ws ++ (getLanguages.filter (fun l => !truthy (jsGet entry l))).map
    (fun l => Warn.missing l kv.1))

/-- The reconciliation of `adminLanguages2words`: `existing = none` models the
`parseWordJs` read throwing, in which case the catch block ignores the error
and only the strings from the translation files are used. -/
def reconcile (existing : Option Dict) (nw : Dict) : Dict × List Warn :=
  match existing with
  | none => (nw, [])
  | some ex => ex.foldl reconcileStep (nw, [])

/-- `adminLanguages2words(i18nBase)`: build the dictionary from the discovered
files, then merge the existing `words.js` dictionary in.  Returns the final
dictionary (which is then serialized by `createWordsJs` and written) and the
warnings in emission order.  This direction never invokes the translation
capability (the definition takes none). -/
def adminLanguages2words (st : I18nState) (existing : Option Dict) :
    Dict × List Warn :=
  reconcile existing (buildNewWords st)

/-- Insert a key into a sorted key list (ascending, as `keys.sort()`). -/
def insertSorted (k : String) : List String → List String
  | [] => [k]
  | x :: r => if k ≤ x then k :: x :: r else x :: insertSorted k r

/-- `keys.sort()` on the key list. -/
def sortKeys : List String → List String
  | [] => []
  | x :: r => insertSorted x (sortKeys r)

/-- Rebuild an object with its keys in sorted order (the per-language write
loop of `adminWords2languages`; the `getD ""` default is unreachable because
every listed key is present). -/
def sortObj (o : Obj) : Obj :=
  (sortKeys (o.map Prod.fst)).map (fun k => (k, (jsGet o k).getD ""))

/-- The body of the double loop of `adminWords2languages` for one word and
one of its language entries: `langs[language][word] = translation;` then the
pre-fill `langs[j][word] = langs[j][word] || ""` for every supported `j`
(the source crashes when `language` is not a supported language, because
`langs[language]` is undefined; the model is used only on dictionaries whose
entries carry supported languages). -/
def words2langsStep (langs : JsObj Obj) (word : String)
    (lt : String × String) : JsObj Obj :=
  let langs := jsSet langs lt.1 (jsSet ((jsGet langs lt.1).getD []) word lt.2)
  getLanguages.foldl
    (fun langs j =>
      if (jsGet langs j).isSome then
        let o := (jsGet langs j).getD []
        jsSet langs j (jsSet o word ((jsGet o word).getD ""))
      else langs)
    langs

/-- `adminWords2languages(words, i18nBase)` on the parsed dictionary: the
per-language objects that get written out (language order is the key order
of `createEmptyLangObject`), each with sorted keys. -/
def adminWords2languages (data : Dict) : JsObj Obj :=
  let langs := createEmptyLangObject ([] : Obj)
  let langs := data.foldl
    (fun langs kv => kv.2.foldl (fun l lt => words2langsStep l kv.1 lt) langs)
    langs
  langs.map (fun p => (p.1, sortObj p.2))

/-! ## LegacyDictionaryCodec (`createWordsJs` / `parseWordJs`)

The codec works on character lists.  Characters that the surrounding Lean
file cannot comfortably show in string literals are named constants. -/

/-- The character list of a string. -/
abbrev StrL := List Char

/-- A TranslationEntry at the character-list level. -/
abbrev EntryL := List (StrL × StrL)

/-- A WordDictionary at the character-list level. -/
abbrev DictL := List (StrL × EntryL)

/-- The double-quote character. -/
def quoteC : Char := Char.ofNat 34

/-- The backslash character. -/
def backslashC : Char := Char.ofNat 92

/-- The apostrophe character. -/
def apostC : Char := Char.ofNat 39

/-- The backtick character. -/
def backtickC : Char := Char.ofNat 96

/-- The opening curly brace. -/
def lbrace : Char := Char.ofNat 123

/-- The closing curly brace. -/
def rbrace : Char := Char.ofNat 125

/-- The forward slash. -/
def slashC : Char := Char.ofNat 47

/-- The asterisk. -/
def starC : Char := Char.ofNat 42

/-- JS whitespace as used by `trim`/`trimEnd` and the tokenizer (the common
ASCII whitespace characters; the exotic Unicode spaces never occur here). -/
def isJsWs (c : Char) : Bool :=
  c = ' ' || c = '\t' || c = '\n' || c = '\r' || c = Char.ofNat 12 ||
  c = Char.ofNat 11

/-- JS `String.prototype.trim`. -/
def trimJS (s : StrL) : StrL :=
  ((s.dropWhile isJsWs).reverse.dropWhile isJsWs).reverse

/-- JS `String.prototype.trimEnd`. -/
def trimEndJS (s : StrL) : StrL :=
  (s.reverse.dropWhile isJsWs).reverse

/-- `item.replace(/"/g, '\\"')`: escape every double quote. -/
def escapeQuotes : StrL → StrL
  | [] => []
  | c :: r =>
      if c = quoteC then backslashC :: quoteC :: escapeQuotes r
      else c :: escapeQuotes r

/-- Modelled from the spec: `util.padRight` (source file not under `src/`)
pads with spaces to the fixed minimum column width used for visual
alignment; text already that wide is unchanged. -/
def padRightL (s : StrL) (n : Nat) : StrL :=
  s ++ List.replicate (n - s.length) ' '

/-- `os.EOL`, modelled as a line feed (both serializations under comparison
use the same convention, so the choice does not affect the round trip). -/
def EOLL : StrL := ['\n']

/-- `lines.join(os.EOL)`. -/
def joinEOL : List StrL → StrL
  | [] => []
  | [x] => x
  | x :: y :: r => x ++ EOLL ++ joinEOL (y :: r)

/-- The fixed banner lines pushed by `createWordsJs` (verbatim, with the
delimiter characters spelled as constants). -/
def wordsBanner : List StrL :=
  [[slashC, starC] ++ "global systemDictionary:true ".toList ++ [starC, slashC],
   [slashC, starC],
   "+===================== DO NOT MODIFY ======================+".toList,
   "| This file was generated by translate-adapter, please use |".toList,
   "| ".toList ++ [backtickC] ++ "translate-adapter adminLanguages2words".toList
     ++ [backtickC] ++ " to update it.   |".toList,
   "+===================== DO NOT MODIFY ======================+".toList,
   [starC, slashC],
   [apostC] ++ "use strict".toList ++ [apostC] ++ [';', '\n']]

/-- The `systemDictionary = {` line. -/
def sysDictOpen : StrL := "systemDictionary = ".toList ++ [lbrace]

/-- The final `};` line. -/
def sysDictClose : StrL := [rbrace, ';']

/-- One `"lang": "value",`-segment of an entry line, value escaped and padded
to column 50, followed by the separating space. -/
def wordsSeg (lt : StrL × StrL) : StrL :=
  [quoteC] ++ lt.1 ++ [quoteC, ':', ' ', quoteC] ++
    padRightL (escapeQuotes lt.2 ++ [quoteC, ',']) 50 ++ [' ']

/-- One key's line of `createWordsJs`: the concatenated language segments,
trimmed and with the final comma chopped when non-empty, behind the padded
`"key": {` preamble, closed by `},`. -/
def entryLine (kv : StrL × EntryL) : StrL :=
  let line := (kv.2.map wordsSeg).flatten
  let line := if line.isEmpty then line else (trimJS line).dropLast
  [' ', ' ', ' ', ' '] ++
    padRightL ([quoteC] ++ escapeQuotes kv.1 ++ [quoteC, ':', ' ', lbrace]) 50 ++
    line ++ [rbrace, ',']

/-- All lines pushed by `createWordsJs`, in order. -/
def createWordsJsLines (data : DictL) : List StrL :=
  wordsBanner ++ [sysDictOpen] ++ data.map entryLine ++ [sysDictClose]

/-- `createWordsJs(data)`: the serialized legacy dictionary asset. -/
def createWordsJs (data : DictL) : StrL :=
  trimEndJS (joinEOL (createWordsJsLines data))

/-- JS single-character string escapes (the restricted literal grammar used
by the generated asset has no `\u`/`\x` hex escapes; for any other
character, `\c` denotes `c`, as in JS). -/
def escChar (c : Char) : Char :=
  if c = 'n' then '\n'
  else if c = 'r' then '\r'
  else if c = 't' then '\t'
  else if c = 'b' then Char.ofNat 8
  else if c = 'f' then Char.ofNat 12
  else if c = 'v' then Char.ofNat 11
  else if c = '0' then Char.ofNat 0
  else c

/-- Parse the body of a JS double-quoted string literal (opening quote
already consumed): returns the denoted characters and the rest.  Raw line
terminators are a syntax error; a backslash escapes the next character. -/
def parseStringBody : StrL → Option (StrL × StrL)
  | [] => none
  | c :: rest =>
      if c = quoteC then some ([], rest)
      else if c = backslashC then
        match rest with
        | [] => none
        | e :: rest2 => (parseStringBody rest2).map (fun p => (escChar e :: p.1, p.2))
      else if c = '\n' || c = '\r' then none
      else (parseStringBody rest).map (fun p => (c :: p.1, p.2))

/-- Skip tokenizer whitespace. -/
def skipWs (s : StrL) : StrL := s.dropWhile isJsWs

/-- Parse the members of a `{"lang": "value", ...}` object (opening brace
already consumed), with optional trailing comma, as JS allows.  The fuel
bounds the number of members; `length + 1` always suffices. -/
def parseInner : Nat → StrL → Option (EntryL × StrL)
  | 0, _ => none
  | fuel + 1, s =>
      match skipWs s with
      | [] => none
      | c :: r =>
          if c = rbrace then some ([], r)
          else if c = quoteC then
            match parseStringBody r with
            | none => none
            | some (k, r1) =>
                match skipWs r1 with
                | [] => none
                | c2 :: r2 =>
                    if c2 = ':' then
                      match skipWs r2 with
                      | [] => none
                      | c3 :: r3 =>
                          if c3 = quoteC then
                            match parseStringBody r3 with
                            | none => none
                            | some (v, r4) =>
                                match skipWs r4 with
                                | [] => none
                                | c5 :: r5 =>
                                    if c5 = ',' then
                                      (parseInner fuel r5).map
                                        (fun p => ((k, v) :: p.1, p.2))
                                    else if c5 = rbrace then
                                      some ([(k, v)], r5)
                                    else none
                          else none
                    else none
          else none

/-- Parse the members of the outer `{"key": {...}, ...}` object (opening
brace already consumed), values being inner objects. -/
def parseOuter : Nat → StrL → Option (DictL × StrL)
  | 0, _ => none
  | fuel + 1, s =>
      match skipWs s with
      | [] => none
      | c :: r =>
          if c = rbrace then some ([], r)
          else if c = quoteC then
            match parseStringBody r with
            | none => none
            | some (k, r1) =>
                match skipWs r1 with
                | [] => none
                | c2 :: r2 =>
                    if c2 = ':' then
                      match skipWs r2 with
                      | [] => none
                      | c3 :: r3 =>
                          if c3 = lbrace then
                            match parseInner (r3.length + 1) r3 with
                            | none => none
                            | some (e, r4) =>
                                match skipWs r4 with
                                | [] => none
                                | c5 :: r5 =>
                                    if c5 = ',' then
                                      (parseOuter fuel r5).map
                                        (fun p => ((k, e) :: p.1, p.2))
                                    else if c5 = rbrace then
                                      some ([(k, e)], r5)
                                    else none
                          else none
                    else none
          else none

/-- Evaluate the extracted text as a data literal: the `new Function("return "
+ words + ";")()` evaluation, restricted to the two-level object-literal
grammar of the generated asset (string keys, string or object values), with
nothing but whitespace around the literal. -/
def evalDictLiteral (s : StrL) : Option DictL :=
  match skipWs s with
  | [] => none
  | c :: r =>
      if c = lbrace then
        match parseOuter (r.length + 1) r with
        | some (d, rest) => if (skipWs rest).isEmpty then some d else none
        | none => none
      else none

/-- `parseWordJs(words)`: `substring(indexOf("{"))` (the whole string when
there is no brace, as `indexOf` returns -1), then `substring(0,
lastIndexOf(";"))` (empty when there is no semicolon), then evaluate as a
data literal. -/
def parseWordJs (s : StrL) : Option DictL :=
  let s1 := s.dropWhile (· ≠ lbrace)
  let s1 := if s1.isEmpty then s else s1
  let s2 := ((s1.reverse.dropWhile (· ≠ ';')).drop 1).reverse
  evalDictLiteral s2

/-! Proof-side renderings of the serialized shape. -/

/-- The last language segment of a line after trim and comma-chop. -/
def segChopped (lt : StrL × StrL) : StrL :=
  [quoteC] ++ lt.1 ++ [quoteC, ':', ' ', quoteC] ++ escapeQuotes lt.2 ++ [quoteC]

/-- The trim-and-chopped language segment list of one entry line. -/
def renderInner : EntryL → StrL
  | [] => []
  | [lt] => segChopped lt
  | lt :: rest => wordsSeg lt ++ renderInner rest

/-- The entry lines each followed by a line separator. -/
def renderEntries : DictL → StrL
  | [] => []
  | kv :: rest => entryLine kv ++ EOLL ++ renderEntries rest

/-- No control characters (ASCII 0-31 and 127). -/
def ctrlFree (s : StrL) : Bool := s.all (fun c => !(c.toNat < 32 || c.toNat = 127))

/-- No backslash. -/
def noBackslash (s : StrL) : Bool := s.all (fun c => c ≠ backslashC)

/-- No double quote. -/
def noQuote (s : StrL) : Bool := s.all (fun c => c ≠ quoteC)

/-- The supported language codes, as character lists. -/
def getLanguagesL : List StrL := getLanguages.map String.toList

/-- A WordDictionary as produced by the synchronization passes: proper JS
objects (no duplicate keys), language codes from the supported set, and —
for the round-trip statement — keys and values free of control characters
and backslashes. -/
def goodDict (d : DictL) : Prop :=
  (d.map Prod.fst).Nodup ∧
  ∀ kv ∈ d, (ctrlFree kv.1 ∧ noBackslash kv.1) ∧ (kv.2.map Prod.fst).Nodup ∧
    ∀ lt ∈ kv.2, lt.1 ∈ getLanguagesL ∧ ctrlFree lt.2 ∧ noBackslash lt.2

/-- A TranslationEntry whose language codes are quote-, backslash-, and
control-free and whose values are control- and backslash-free. -/
def goodEntry (e : EntryL) : Prop :=
  ∀ lt ∈ e,
    (noQuote lt.1 = true ∧ noBackslash lt.1 = true ∧ ctrlFree lt.1 = true) ∧
    ctrlFree lt.2 = true ∧ noBackslash lt.2 = true

/-- Keys control- and backslash-free, entries good. -/
def goodKeyVals (d : DictL) : Prop :=
  ∀ kv ∈ d, (ctrlFree kv.1 = true ∧ noBackslash kv.1 = true) ∧ goodEntry kv.2

/-! ## Claim-side predicate for the pattern derivation and example inputs -/

/-- The claim's wording for C9: the filename contains the literal token `en`
bounded on both sides by non-word characters. -/
def hasBoundedEnToken (s : List Char) : Prop :=
  ∃ pre c1 c2 suf, s = pre ++ c1 :: 'e' :: 'n' :: c2 :: suf ∧
    isWordChar c1 = false ∧ isWordChar c2 = false

/-- A concrete deterministic translation capability for closed statements. -/
def trEx : String → String → String := fun t l => t ++ "@" ++ l

/-- A concrete base content. -/
def baseEx : Obj := [("hello", "Hello")]

/-- Base file discovered, a `de` file with a key the base lacks. -/
def stC3ex : I18nState :=
  ⟨fun l => if l = "en" then some baseEx
    else if l = "de" then some [("extra", "x")] else none,
   fun l => l == "en" || l == "de"⟩

/-- The base file exists but is not among the discovered files (for example
because it does not live under the admin directory). -/
def stC4ex : I18nState :=
  ⟨fun l => if l = "en" then some baseEx else none, fun _ => false⟩

/-- Only an English file, holding one key. -/
def stWordsEx : I18nState :=
  ⟨fun l => if l = "en" then some [("k", "x")] else none, fun l => l == "en"⟩

/-- No language files at all. -/
def stEmptyEx : I18nState := ⟨fun _ => none, fun _ => false⟩

/-! # Theorems -/

section Lemmas

theorem jsGet_jsSet_self {α : Type} (o : JsObj α) (k : String) (v : α) :
    jsGet (jsSet o k v) k = some v := by
  induction o with
  | nil => simp [jsGet, jsSet]
  | cons hd tl ih =>
      obtain ⟨k', v'⟩ := hd
      by_cases h : k' = k <;> simp [jsGet, jsSet, h, ih]

theorem jsGet_jsSet_ne {α : Type} (o : JsObj α) {k k' : String} (v : α)
    (h : k' ≠ k) : jsGet (jsSet o k v) k' = jsGet o k' := by
  induction o with
  | nil => simp [jsGet, jsSet, Ne.symm h]
  | cons hd tl ih =>
      obtain ⟨k₀, v₀⟩ := hd
      by_cases h0 : k₀ = k
      · subst h0
        simp [jsGet, jsSet, Ne.symm h]
      · simp only [jsSet, if_neg h0]
        by_cases h1 : k₀ = k' <;> simp [jsGet, h1, ih]

theorem jsSet_of_jsGet_none {α : Type} {o : JsObj α} {k : String} (v : α)
    (h : jsGet o k = none) : jsSet o k v = o ++ [(k, v)] := by
  induction o with
  | nil => simp [jsSet]
  | cons hd tl ih =>
      obtain ⟨k₀, v₀⟩ := hd
      by_cases h0 : k₀ = k
      · simp [jsGet, h0] at h
      · simp only [jsGet, if_neg h0] at h
        simp [jsSet, h0, ih h]

theorem jsSet_of_jsGet_self {α : Type} {o : JsObj α} {k : String} {v : α}
    (h : jsGet o k = some v) : jsSet o k v = o := by
  induction o with
  | nil => simp [jsGet] at h
  | cons hd tl ih =>
      obtain ⟨k₀, v₀⟩ := hd
      by_cases h0 : k₀ = k
      · simp only [jsGet, if_pos h0, Option.some.injEq] at h
        simp [jsSet, h0, h]
      · simp only [jsGet, if_neg h0] at h
        simp [jsSet, h0, ih h]

theorem mem_jsSet {α : Type} {o : JsObj α} {k : String} {v : α}
    {p : String × α} (h : p ∈ jsSet o k v) : p = (k, v) ∨ p ∈ o := by
  induction o with
  | nil => simpa [jsSet] using h
  | cons hd tl ih =>
      obtain ⟨k₀, v₀⟩ := hd
      by_cases h0 : k₀ = k
      · rw [jsSet, if_pos h0] at h
        rcases List.mem_cons.mp h with h1 | h1
        · exact Or.inl h1
        · exact Or.inr (List.mem_cons_of_mem _ h1)
      · rw [jsSet, if_neg h0] at h
        rcases List.mem_cons.mp h with h1 | h1
        · exact Or.inr (List.mem_cons.mpr (Or.inl h1))
        · rcases ih h1 with h' | h'
          · exact Or.inl h'
          · exact Or.inr (List.mem_cons_of_mem _ h')

theorem jsGet_mem {α : Type} {o : JsObj α} {k : String} {v : α}
    (h : jsGet o k = some v) : (k, v) ∈ o := by
  induction o with
  | nil => simp [jsGet] at h
  | cons hd tl ih =>
      obtain ⟨k₀, v₀⟩ := hd
      by_cases h0 : k₀ = k
      · simp only [jsGet, if_pos h0, Option.some.injEq] at h
        subst h0; subst h; exact List.mem_cons_self _ _
      · simp only [jsGet, if_neg h0] at h
        exact List.mem_cons_of_mem _ (ih h)

theorem jsGet_eq_none_iff {α : Type} (o : JsObj α) (k : String) :
    jsGet o k = none ↔ k ∉ o.map Prod.fst := by
  induction o with
  | nil => simp [jsGet]
  | cons hd tl ih =>
      obtain ⟨k₀, v₀⟩ := hd
      by_cases h0 : k₀ = k <;> simp [jsGet, h0, ih, Ne.symm]

theorem jsGet_isSome_of_mem_keys {α : Type} {o : JsObj α} {k : String}
    (h : k ∈ o.map Prod.fst) : (jsGet o k).isSome := by
  cases hg : jsGet o k with
  | none => exact absurd ((jsGet_eq_none_iff o k).mp hg) (by simpa using h)
  | some v => rfl

/-- `foldl` of a pointwise-identity step is the identity. -/
theorem foldl_id_of_fix {α β : Type} {f : α → β → α} {s : α} {l : List β}
    (h : ∀ b ∈ l, f s b = s) : l.foldl f s = s := by
  induction l with
  | nil => rfl
  | cons hd tl ih =>
      rw [List.foldl_cons, h hd (List.mem_cons_self _ _)]
      exact ih (fun b hb => h b (List.mem_cons_of_mem _ hb))

/-- A `foldl` preserves any invariant its step preserves. -/
theorem foldl_preserve {α β : Type} {P : α → Prop} {f : α → β → α}
    {l : List β} {s : α} (hstep : ∀ a b, P a → P (f a b)) (hs : P s) :
    P (l.foldl f s) := by
  induction l generalizing s with
  | nil => exact hs
  | cons hd tl ih => exact ih (hstep s hd hs)

end Lemmas

section MoreLemmas

/-- A `foldl` preserves any invariant its step preserves on list members. -/
theorem foldl_preserve_mem {α β : Type} {P : α → Prop} {f : α → β → α}
    {l : List β} {s : α} (hstep : ∀ a b, b ∈ l → P a → P (f a b)) (hs : P s) :
    P (l.foldl f s) := by
  induction l generalizing s with
  | nil => exact hs
  | cons hd tl ih =>
      exact ih (fun a b hb ha => hstep a b (List.mem_cons_of_mem _ hb) ha)
        (hstep s hd (List.mem_cons_self _ _) hs)

/-- In an object without duplicate keys, a key determines its value. -/
theorem keys_nodup_eq {α : Type} {o : JsObj α} (hnd : (o.map Prod.fst).Nodup)
    {k : String} {a b : α} (ha : (k, a) ∈ o) (hb : (k, b) ∈ o) : a = b := by
  induction o with
  | nil => cases ha
  | cons hd tl ih =>
      rw [List.map_cons, List.nodup_cons] at hnd
      rcases List.mem_cons.mp ha with h1 | h1 <;>
        rcases List.mem_cons.mp hb with h2 | h2
      · rw [← h1] at h2
        exact congrArg Prod.snd h2.symm
      · exfalso
        apply hnd.1
        rw [← h1]
        exact List.mem_map.mpr ⟨(k, b), h2, rfl⟩
      · exfalso
        apply hnd.1
        rw [← h2]
        exact List.mem_map.mpr ⟨(k, a), h1, rfl⟩
      · exact ih hnd.2 h1 h2

/-- `jsGet` through a value-map that keeps keys. -/
theorem jsGet_map_snd {α β : Type} (o : JsObj α) (f : α → β) (k : String) :
    jsGet (o.map (fun p => (p.1, f p.2))) k = (jsGet o k).map f := by
  induction o with
  | nil => simp [jsGet]
  | cons hd tl ih =>
      obtain ⟨k₀, v₀⟩ := hd
      by_cases h0 : k₀ = k <;> simp [jsGet, h0, ih]

end MoreLemmas


/-! ## C9: pattern derivation succeeds exactly on boundary-delimited en -/

theorem isWenWAt_iff (s : List Char) :
    isWenWAt s = true ↔
      ∃ c1 c2 suf, s = c1 :: 'e' :: 'n' :: c2 :: suf ∧
        isWordChar c1 = false ∧ isWordChar c2 = false := by
  constructor
  · intro h
    rcases s with _ | ⟨c1, _ | ⟨e, _ | ⟨n, _ | ⟨c2, rest⟩⟩⟩⟩ <;>
      simp [isWenWAt] at h
    obtain ⟨⟨⟨he, hn⟩, h1⟩, h2⟩ := h
    subst he; subst hn
    exact ⟨c1, c2, rest, rfl, h1, h2⟩
  · rintro ⟨c1, c2, suf, rfl, h1, h2⟩
    show (decide ('e' = 'e') && decide ('n' = 'n') && !isWordChar c1 && !isWordChar c2) = true
    rw [h1, h2]
    rfl

theorem matchWenW_iff (s : List Char) :
    matchWenW s = true ↔ hasBoundedEnToken s := by
  induction s with
  | nil =>
      simp only [matchWenW, hasBoundedEnToken, Bool.false_eq_true, false_iff]
      rintro ⟨pre, c1, c2, suf, heq, -, -⟩
      exact absurd heq.symm (by simp)
  | cons c rest ih =>
      rw [matchWenW, Bool.or_eq_true, ih]
      constructor
      · rintro (h | ⟨pre, c1, c2, suf, heq, h1, h2⟩)
        · obtain ⟨c1, c2, suf, heq, h1, h2⟩ := (isWenWAt_iff _).mp h
          exact ⟨[], c1, c2, suf, by simpa using heq, h1, h2⟩
        · exact ⟨c :: pre, c1, c2, suf, by simp [heq], h1, h2⟩
      · rintro ⟨pre, c1, c2, suf, heq, h1, h2⟩
        cases pre with
        | nil =>
            left
            exact (isWenWAt_iff _).mpr ⟨c1, c2, suf, by simpa using heq, h1, h2⟩
        | cons p pre' =>
            right
            simp only [List.cons_append, List.cons.injEq] at heq
            exact ⟨pre', c1, c2, suf, heq.2, h1, h2⟩

theorem splitWenW_isSome (s : List Char) :
    (splitWenW s).isSome = matchWenW s := by
  induction s with
  | nil => rfl
  | cons c rest ih =>
      by_cases h : isWenWAt (c :: rest) = true
      · simp only [splitWenW, matchWenW, h, ite_true, Bool.true_or]
        rcases rest with _ | ⟨e, _ | ⟨n, _ | ⟨c2, r2⟩⟩⟩
        · simp [isWenWAt] at h
        · simp [isWenWAt] at h
        · simp [isWenWAt] at h
        · rfl
      · rw [Bool.not_eq_true] at h
        simp only [splitWenW, matchWenW, h, Bool.false_eq_true, if_false,
          Bool.false_or]
        cases hs : splitWenW rest with
        | none =>
            rw [hs] at ih
            simp [← ih]
        | some pr =>
            rw [hs] at ih
            simp [← ih]

/-- C9: `createFilePattern` derives a pattern exactly for the reference
filenames that contain the literal token `en` bounded on both sides by
non-word characters; for all other filenames it fails (the thrown
"Base file must be an English JSON file" error). -/
theorem createFilePattern_isSome_iff (baseFile : List Char) :
    (createFilePattern baseFile).isSome = true ↔ hasBoundedEnToken baseFile := by
  rw [← matchWenW_iff, createFilePattern]
  by_cases h : matchWenW baseFile = true
  · simp only [h, Bool.not_true, Bool.false_eq_true, if_false]
    rw [show ((splitWenW baseFile).map
        (fun pr => FilePattern.mk pr.1 pr.2)).isSome = (splitWenW baseFile).isSome
      from by cases splitWenW baseFile <;> rfl]
    rw [splitWenW_isSome, h]
    simp
  · rw [Bool.not_eq_true] at h
    simp [h]

/-! ## C1: translateNotExisting -/

theorem translateLoop_fst_not_mem (tr : String → String → String)
    (text : String) :
    ∀ (ls : List String) (acc : Obj × List (String × String)) (k : String),
      k ∉ ls → jsGet (translateLoop tr text acc ls).1 k = jsGet acc.1 k := by
  intro ls
  induction ls with
  | nil => intro acc k _; rfl
  | cons l0 rest ih =>
      intro acc k hk
      rw [List.mem_cons, not_or] at hk
      rw [translateLoop, List.foldl_cons]
      rw [show List.foldl _ _ rest = translateLoop tr text _ rest from rfl]
      rw [ih _ k hk.2]
      by_cases h0 : truthy (jsGet acc.1 l0) = true
      · rw [if_pos h0]
      · rw [if_neg h0]
        exact jsGet_jsSet_ne acc.1 (tr text l0) hk.1

theorem translateLoop_fst_mem (tr : String → String → String)
    (text : String) :
    ∀ (ls : List String), ls.Nodup →
      ∀ (acc : Obj × List (String × String)) (l : String), l ∈ ls →
        jsGet (translateLoop tr text acc ls).1 l =
          if truthy (jsGet acc.1 l) then jsGet acc.1 l else some (tr text l) := by
  intro ls
  induction ls with
  | nil => intro _ acc l hl; cases hl
  | cons l0 rest ih =>
      intro hnd acc l hl
      rw [List.nodup_cons] at hnd
      rw [translateLoop, List.foldl_cons]
      rw [show List.foldl _ _ rest = translateLoop tr text _ rest from rfl]
      rcases List.mem_cons.mp hl with h | h
      · subst h
        rw [translateLoop_fst_not_mem tr text rest _ l hnd.1]
        by_cases h0 : truthy (jsGet acc.1 l) = true
        · rw [if_pos h0, if_pos h0]
        · rw [if_neg h0, if_neg h0]
          exact jsGet_jsSet_self acc.1 l (tr text l)
      · have hne : l ≠ l0 := fun he => hnd.1 (he ▸ h)
        rw [ih hnd.2 _ l h]
        by_cases h0 : truthy (jsGet acc.1 l0) = true
        · rw [if_pos h0]
        · rw [if_neg h0]
          rw [jsGet_jsSet_ne acc.1 (tr text l0) hne]

theorem translateLoop_snd (tr : String → String → String) (text : String) :
    ∀ (ls : List String), ls.Nodup →
      ∀ (c : Obj) (cs : List (String × String)),
        (translateLoop tr text (c, cs) ls).2 =
          cs ++ (ls.filter (fun l => !truthy (jsGet c l))).map
            (fun l => (text, l)) := by
  intro ls
  induction ls with
  | nil => intro _ c cs; simp [translateLoop]
  | cons l0 rest ih =>
      intro hnd c cs
      rw [List.nodup_cons] at hnd
      rw [translateLoop, List.foldl_cons]
      rw [show List.foldl _ _ rest = translateLoop tr text _ rest from rfl]
      by_cases h0 : truthy (jsGet c l0) = true
      · rw [if_pos h0]
        rw [ih hnd.2 c cs]
        rw [List.filter_cons_of_neg (by simp [h0])]
      · rw [if_neg h0]
        rw [ih hnd.2 (jsSet c l0 (tr text l0)) (cs ++ [(text, l0)])]
        rw [List.filter_cons_of_pos (by simp [Bool.not_eq_true] at h0 ⊢; exact h0)]
        rw [List.filter_congr (fun l hl => by
          have hne : l ≠ l0 := fun he => hnd.1 (by rw [← he]; exact hl)
          rw [jsGet_jsSet_ne c (tr text l0) hne])]
        simp

/-- C1, counterexample to the claim as stated: with an entry whose English
value is absent and a non-empty fallback text, `translateNotExisting` does
invoke the translation capability with target language `en` and overwrites
the English value with the capability's result. -/
theorem translateNotExisting_counterexample :
    ("Hello", "en") ∈ (translateNotExisting trEx [] (some "Hello")).2 ∧
    jsGet (translateNotExisting trEx [] (some "Hello")).1 "en" =
      some "Hello@en" := by decide

/-- C1 (amended): with source text `text = entry.en || fallback`, the
operation is a no-op when the source text is falsy; otherwise it stores a
translation exactly for those supported language codes — `en` included —
whose value is missing or empty (so the capability is invoked with target
`en` exactly when the English value itself was missing or empty), leaves
every already non-empty value and every other key unchanged, and the call
list is exactly one `(text, lang)` call per filled language, in language
order. -/
theorem translateNotExisting_spec (tr : String → String → String) (obj : Obj)
    (baseText : Option String) :
    (truthy (srcText obj baseText) = false →
        translateNotExisting tr obj baseText = (obj, [])) ∧
    ∀ t, srcText obj baseText = some t → t ≠ "" →
      (∀ l ∈ getLanguages,
          jsGet (translateNotExisting tr obj baseText).1 l =
            if truthy (jsGet obj l) then jsGet obj l else some (tr t l)) ∧
      (∀ k, k ∉ getLanguages →
          jsGet (translateNotExisting tr obj baseText).1 k = jsGet obj k) ∧
      (translateNotExisting tr obj baseText).2 =
        (getLanguages.filter (fun l => !truthy (jsGet obj l))).map
          (fun l => (t, l)) := by
  constructor
  · intro hf
    rw [translateNotExisting]
    cases hs : srcText obj baseText with
    | none => rfl
    | some t =>
        rw [hs] at hf
        have ht : t = "" := by
          by_contra hne
          simp [truthy, hne] at hf
        exact if_pos ht
  · intro t hs ht
    have hrun : translateNotExisting tr obj baseText =
        translateLoop tr t (obj, []) getLanguages := by
      rw [translateNotExisting, hs]
      exact if_neg ht
    refine ⟨?_, ?_, ?_⟩
    · intro l hl
      rw [hrun]
      exact translateLoop_fst_mem tr t getLanguages (by decide) (obj, []) l hl
    · intro k hk
      rw [hrun]
      exact translateLoop_fst_not_mem tr t getLanguages (obj, []) k hk
    · rw [hrun]
      exact translateLoop_snd tr t getLanguages (by decide) obj []

/-- Witness for the amended C1 theorem at a concrete entry. -/
theorem translateNotExisting_spec_witness :
    jsGet (translateNotExisting trEx [("en", "Hi")] none).1 "de" =
      some "Hi@de" := by
  have h := ((translateNotExisting_spec trEx [("en", "Hi")] none).2 "Hi"
    (by decide) (by decide)).1 "de" (by decide)
  rw [h]
  decide

/-! ## C10: adminWords2languages drops keys with empty entries -/

theorem mem_insertSorted {a k : String} :
    ∀ {l : List String}, a ∈ insertSorted k l ↔ a = k ∨ a ∈ l := by
  intro l
  induction l with
  | nil => simp [insertSorted]
  | cons x r ih =>
      rw [insertSorted]
      by_cases h : k ≤ x
      · simp [h]
      · rw [if_neg h]
        simp only [List.mem_cons, ih]
        tauto

theorem mem_sortKeys {a : String} :
    ∀ {l : List String}, a ∈ sortKeys l ↔ a ∈ l := by
  intro l
  induction l with
  | nil => simp [sortKeys]
  | cons x r ih => simp [sortKeys, mem_insertSorted, ih]

theorem jsGet_sortObj_none {o : Obj} {k : String} (h : jsGet o k = none) :
    jsGet (sortObj o) k = none := by
  rw [jsGet_eq_none_iff] at h
  have hk : k ∉ sortKeys (o.map Prod.fst) := fun hmem => h (mem_sortKeys.mp hmem)
  rw [sortObj]
  generalize sortKeys (o.map Prod.fst) = ks at hk
  induction ks with
  | nil => rfl
  | cons x r ih =>
      rw [List.mem_cons, not_or] at hk
      rw [List.map_cons]
      rw [jsGet, if_neg (fun he => hk.1 he.symm)]
      exact ih hk.2

theorem words2langsStep_preserves {w word : String} (hne : word ≠ w)
    {langs : JsObj Obj} (hP : ∀ p ∈ langs, jsGet p.2 w = none)
    (lt : String × String) :
    ∀ p ∈ words2langsStep langs word lt, jsGet p.2 w = none := by
  have hobj : ∀ (ls : JsObj Obj), (∀ p ∈ ls, jsGet p.2 w = none) →
      ∀ (j : String), jsGet ((jsGet ls j).getD []) w = none := by
    intro ls hls j
    cases hg : jsGet ls j with
    | none => rfl
    | some o => exact hls (j, o) (jsGet_mem hg)
  rw [words2langsStep]
  refine foldl_preserve
    (P := fun (ls : JsObj Obj) => ∀ p ∈ ls, jsGet p.2 w = none) ?_ ?_
  · intro ls j hls p hp
    by_cases hj : (jsGet ls j).isSome
    · rw [if_pos hj] at hp
      rcases mem_jsSet hp with h | h
      · rw [h]
        dsimp only
        rw [jsGet_jsSet_ne _ _ (Ne.symm hne)]
        exact hobj ls hls j
      · exact hls p h
    · rw [if_neg hj] at hp
      exact hls p hp
  · intro p hp
    rcases mem_jsSet hp with h | h
    · rw [h]
      dsimp only
      rw [jsGet_jsSet_ne _ _ (Ne.symm hne)]
      exact hobj langs hP lt.1
    · exact hP p h

/-- C10: in the words-to-JSON direction, a key whose translation entry in the
parsed legacy dictionary is an empty mapping is silently dropped: it appears
in none of the written per-language JSON files, because the per-language
pre-filling with empty strings only happens while iterating the languages
actually present in that key's entry. -/
theorem adminWords2languages_drops_empty (data : Dict)
    (hnd : (data.map Prod.fst).Nodup)
    (_hsupported : ∀ kv ∈ data, ∀ lt ∈ kv.2, lt.1 ∈ getLanguages)
    (w : String) (hw : (w, ([] : Entry)) ∈ data) :
    ∀ l : String,
      jsGet ((jsGet (adminWords2languages data) l).getD []) w = none := by
  intro l
  rw [adminWords2languages]
  have hfold : ∀ p ∈ (data.foldl
      (fun langs kv => kv.2.foldl (fun l lt => words2langsStep l kv.1 lt) langs)
      (createEmptyLangObject ([] : Obj))), jsGet p.2 w = none := by
    refine foldl_preserve_mem
      (P := fun (langs : JsObj Obj) => ∀ p ∈ langs, jsGet p.2 w = none) ?_ ?_
    · intro langs kv hkv hP
      by_cases hkw : kv.1 = w
      · have : kv.2 = ([] : Entry) := by
          have : kv = (w, ([] : Entry)) := by
            have h2 := keys_nodup_eq hnd (by rw [← hkw] at hw; exact hw)
              (show (kv.1, kv.2) ∈ data from hkv)
            rw [← hkw]
            exact Prod.ext rfl h2.symm
          rw [this]
        rw [this]
        exact hP
      · exact foldl_preserve
          (P := fun (ls : JsObj Obj) => ∀ p ∈ ls, jsGet p.2 w = none)
          (fun ls lt hls => words2langsStep_preserves hkw hls lt) hP
    · intro p hp
      rcases List.mem_map.mp hp with ⟨lg, _, hlg⟩
      rw [← hlg]
      rfl
  rw [show (fun p : String × Obj => (p.1, sortObj p.2)) =
    (fun p : String × Obj => (p.1, (fun o => sortObj o) p.2)) from rfl]
  rw [jsGet_map_snd]
  cases hg : jsGet (data.foldl
      (fun langs kv => kv.2.foldl (fun l lt => words2langsStep l kv.1 lt) langs)
      (createEmptyLangObject ([] : Obj))) l with
  | none => rfl
  | some o =>
      rw [Option.map_some']
      rw [Option.getD_some]
      exact jsGet_sortObj_none (hfold (l, o) (jsGet_mem hg))

/-- Witness for C10 at a concrete dictionary holding an empty entry. -/
theorem adminWords2languages_drops_empty_witness :
    jsGet ((jsGet (adminWords2languages
        [("w", []), ("x", [("en", "hi")])]) "de").getD []) "w" = none := by
  exact adminWords2languages_drops_empty [("w", []), ("x", [("en", "hi")])]
    (by decide) (by decide) "w" (by decide) "de"

/-! ## C2, C6, C7: adminLanguages2words reconciliation -/

theorem reconcileStep_snd_shape (acc : Dict × List Warn) (kv : String × Entry) :
    ∃ w, (reconcileStep acc kv).2 = acc.2 ++ w := by
  simp only [reconcileStep]
  by_cases h : (jsGet acc.1 kv.1).isSome
  · rw [if_pos h, if_pos h]
    exact ⟨_, rfl⟩
  · rw [if_neg h, if_neg h]
    exact ⟨_, List.append_assoc _ _ _⟩

theorem reconcile_snd_mono :
    ∀ (ex : Dict) (acc : Dict × List Warn),
      ∃ w, (ex.foldl reconcileStep acc).2 = acc.2 ++ w := by
  intro ex
  induction ex with
  | nil => exact fun acc => ⟨[], by simp⟩
  | cons kv rest ih =>
      intro acc
      rw [List.foldl_cons]
      obtain ⟨w1, hw1⟩ := reconcileStep_snd_shape acc kv
      obtain ⟨w2, hw2⟩ := ih (reconcileStep acc kv)
      exact ⟨w1 ++ w2, by rw [hw2, hw1, List.append_assoc]⟩

theorem reconcile_fst_stable :
    ∀ (ex : Dict) (k : String), k ∉ ex.map Prod.fst →
      ∀ (acc : Dict × List Warn),
        jsGet (ex.foldl reconcileStep acc).1 k = jsGet acc.1 k := by
  intro ex
  induction ex with
  | nil => intro k _ acc; rfl
  | cons kv rest ih =>
      intro k hk acc
      rw [List.map_cons, List.mem_cons, not_or] at hk
      rw [List.foldl_cons, ih k hk.2]
      simp only [reconcileStep]
      by_cases h : (jsGet acc.1 kv.1).isSome
      · rw [if_pos h]
      · rw [if_neg h]
        exact jsGet_jsSet_ne acc.1 kv.2 hk.1

theorem reconcile_fst_of_isSome :
    ∀ (ex : Dict) (acc : Dict × List Warn) (k : String) (e : Entry),
      jsGet acc.1 k = some e →
      jsGet (ex.foldl reconcileStep acc).1 k = some e := by
  intro ex
  induction ex with
  | nil => intro acc k e h; exact h
  | cons kv rest ih =>
      intro acc k e h
      rw [List.foldl_cons]
      apply ih
      simp only [reconcileStep]
      by_cases hs : (jsGet acc.1 kv.1).isSome
      · rw [if_pos hs]; exact h
      · rw [if_neg hs]
        by_cases hk : kv.1 = k
        · rw [hk, h] at hs
          exact absurd rfl hs
        · rw [jsGet_jsSet_ne acc.1 kv.2 (fun he => hk he.symm)]
          exact h

theorem reconcile_key_spec (nw : Dict) (ex : Dict)
    (hnd : (ex.map Prod.fst).Nodup) (k : String) (e : Entry)
    (hmem : (k, e) ∈ ex) :
    ∃ e', jsGet (reconcile (some ex) nw).1 k = some e' ∧
      (jsGet nw k = some e' ∨
        (jsGet nw k = none ∧ e' = e ∧
          Warn.take k ∈ (reconcile (some ex) nw).2)) ∧
      ∀ l ∈ getLanguages, truthy (jsGet e' l) = false →
        Warn.missing l k ∈ (reconcile (some ex) nw).2 := by
  obtain ⟨pre, post, rfl⟩ := List.append_of_mem hmem
  have hnd' : k ∉ pre.map Prod.fst ++ post.map Prod.fst := by
    rw [List.map_append, List.map_cons] at hnd
    exact (List.nodup_cons.mp (List.nodup_middle.mp hnd)).1
  rw [List.mem_append, not_or] at hnd'
  have hfold : reconcile (some (pre ++ (k, e) :: post)) nw =
      post.foldl reconcileStep
        (reconcileStep (pre.foldl reconcileStep (nw, [])) (k, e)) := by
    rw [reconcile, List.foldl_append, List.foldl_cons]
  have hs1 : jsGet (pre.foldl reconcileStep (nw, ([] : List Warn))).1 k =
      jsGet nw k := reconcile_fst_stable pre k hnd'.1 (nw, [])
  obtain ⟨wpost, hwpost⟩ := reconcile_snd_mono post
    (reconcileStep (pre.foldl reconcileStep (nw, [])) (k, e))
  set s1 := pre.foldl reconcileStep (nw, ([] : List Warn)) with hs1def
  have hmiss : ∀ (e' : Entry),
      jsGet (reconcileStep s1 (k, e)).1 k = some e' →
      ∀ l ∈ getLanguages, truthy (jsGet e' l) = false →
        Warn.missing l k ∈ (reconcileStep s1 (k, e)).2 := by
    intro e' hge' l hl hfalsy
    simp only [reconcileStep] at hge' ⊢
    apply List.mem_append_right
    rw [hge']
    apply List.mem_map.mpr
    refine ⟨l, List.mem_filter.mpr ⟨hl, ?_⟩, rfl⟩
    simp only [Option.getD_some]
    rw [hfalsy]
    rfl
  cases hg : jsGet nw k with
  | some e0 =>
      have hstep1 : (reconcileStep s1 (k, e)).1 = s1.1 := by
        simp only [reconcileStep]
        rw [if_pos (by rw [hs1, hg]; rfl)]
      have hstepk : jsGet (reconcileStep s1 (k, e)).1 k = some e0 := by
        rw [hstep1, hs1, hg]
      refine ⟨e0, ?_, Or.inl rfl, ?_⟩
      · rw [hfold]
        exact reconcile_fst_of_isSome post _ k e0 hstepk
      · intro l hl hfalsy
        rw [hfold, hwpost]
        exact List.mem_append_left _ (hmiss e0 hstepk l hl hfalsy)
  | none =>
      have hnots : ¬(jsGet s1.1 (k, e).1).isSome = true := by
        rw [hs1, hg]; exact fun hc => by cases hc
      have hstep1 : (reconcileStep s1 (k, e)).1 = jsSet s1.1 k e := by
        simp only [reconcileStep]
        rw [if_neg hnots]
      have hstepk : jsGet (reconcileStep s1 (k, e)).1 k = some e := by
        rw [hstep1]
        exact jsGet_jsSet_self s1.1 k e
      have htake : Warn.take k ∈ (reconcileStep s1 (k, e)).2 := by
        simp only [reconcileStep]
        rw [if_neg hnots]
        apply List.mem_append_left
        exact List.mem_append_right _ (List.mem_singleton.mpr rfl)
      refine ⟨e, ?_, Or.inr ⟨rfl, rfl, ?_⟩, ?_⟩
      · rw [hfold]
        exact reconcile_fst_of_isSome post _ k e hstepk
      · rw [hfold, hwpost]
        exact List.mem_append_left _ htake
      · intro l hl hfalsy
        rw [hfold, hwpost]
        exact List.mem_append_left _ (hmiss e hstepk l hl hfalsy)

/-- C6: reconciliation keeps old entries verbatim with a warning: a key of
the previously existing dictionary that is absent from the dictionary newly
built from the discovered files ends up in the final dictionary with the old
entry unchanged, and a `Take from current words.js` warning naming the key
is emitted. -/
theorem adminLanguages2words_keeps_old (st : I18nState) (ex : Dict)
    (hnd : (ex.map Prod.fst).Nodup) (k : String) (e : Entry)
    (hmem : (k, e) ∈ ex) (habs : jsGet (buildNewWords st) k = none) :
    jsGet (adminLanguages2words st (some ex)).1 k = some e ∧
    Warn.take k ∈ (adminLanguages2words st (some ex)).2 := by
  obtain ⟨e', h1, h2, _⟩ := reconcile_key_spec (buildNewWords st) ex hnd k e hmem
  rcases h2 with h2 | ⟨-, rfl, htake⟩
  · rw [habs] at h2
    cases h2
  · exact ⟨h1, htake⟩

/-- Witness for C6 at a concrete old dictionary and empty discovery. -/
theorem adminLanguages2words_keeps_old_witness :
    jsGet (adminLanguages2words stEmptyEx
        (some [("k", [("de", "x")])])).1 "k" = some [("de", "x")] ∧
    Warn.take "k" ∈ (adminLanguages2words stEmptyEx
        (some [("k", [("de", "x")])])).2 :=
  adminLanguages2words_keeps_old stEmptyEx _ (by decide) "k" _ (by decide)
    (by decide)

/-- C2, counterexample to the claim as stated: with one discovered English
file holding key `k` and an existing dictionary that parses to the empty
mapping, the final dictionary holds `k` with an empty `de` value, yet no
warning at all is emitted — the missing-translation check only iterates the
keys of the previously existing dictionary. -/
theorem adminLanguages2words_counterexample :
    (adminLanguages2words stWordsEx (some [])).2 = [] ∧
    (jsGet (adminLanguages2words stWordsEx (some [])).1 "k").isSome = true ∧
    truthy (jsGet ((jsGet (adminLanguages2words stWordsEx
      (some [])).1 "k").getD []) "de") = false := by decide

/-- C2 (amended): for every key of the previously existing dictionary (when
it parses) and every supported language whose value in the final merged
dictionary is missing or empty, a warning naming that language and that key
is emitted; keys that only exist in the newly built dictionary get no such
warnings, and none are emitted when the existing dictionary fails to parse.
This direction invokes no translation capability (the definitions take
none). -/
theorem adminLanguages2words_warns_existing (st : I18nState) (ex : Dict)
    (hnd : (ex.map Prod.fst).Nodup) (k : String) (e : Entry)
    (hmem : (k, e) ∈ ex) :
    ∃ e', jsGet (adminLanguages2words st (some ex)).1 k = some e' ∧
      ∀ l ∈ getLanguages, truthy (jsGet e' l) = false →
        Warn.missing l k ∈ (adminLanguages2words st (some ex)).2 := by
  obtain ⟨e', h1, -, h3⟩ := reconcile_key_spec (buildNewWords st) ex hnd k e hmem
  exact ⟨e', h1, h3⟩

/-- Witness for the amended C2 theorem at a concrete input. -/
theorem adminLanguages2words_warns_existing_witness :
    Warn.missing "de" "k" ∈ (adminLanguages2words stEmptyEx
      (some [("k", [("en", "x")])])).2 := by
  obtain ⟨e', he, hw⟩ := adminLanguages2words_warns_existing stEmptyEx
    [("k", [("en", "x")])] (by decide) "k" [("en", "x")] (by decide)
  have h2 : jsGet (adminLanguages2words stEmptyEx
      (some [("k", [("en", "x")])])).1 "k" = some [("en", "x")] := by decide
  rw [he] at h2
  have he' : e' = [("en", "x")] := by
    injection h2
  exact hw "de" (by decide) (by rw [he']; decide)

theorem jsGet_jsSet_isSome {α : Type} (o : JsObj α) (k k' : String) (v : α)
    (h : (jsGet o k').isSome) : (jsGet (jsSet o k v) k').isSome := by
  by_cases he : k' = k
  · rw [he, jsGet_jsSet_self]
    rfl
  · rw [jsGet_jsSet_ne o v he]
    exact h

theorem jsGet_map_pair_isSome {α : Type} (f : String → α) :
    ∀ (ks : List String) (l : String), l ∈ ks →
      (jsGet (ks.map (fun k => (k, f k))) l).isSome := by
  intro ks
  induction ks with
  | nil => intro l hl; cases hl
  | cons x r ih =>
      intro l hl
      rw [List.map_cons]
      by_cases he : x = l
      · rw [jsGet, if_pos he]
        rfl
      · rw [jsGet, if_neg he]
        rcases List.mem_cons.mp hl with h | h
        · exact absurd h.symm he
        · exact ih l h

/-- C7 (amended): every key of the final dictionary whose entry was built
from the discovered language files has a value (possibly the empty string)
for every supported language, and the reconciliation passes that entry to
the final dictionary unchanged; keys taken verbatim from the old dictionary
instead keep exactly the old entry (see the counterexample for why the
claimed invariant fails for them). -/
theorem buildNewWords_complete (st : I18nState) (ex : Option Dict)
    (k : String) (e : Entry) (h : jsGet (buildNewWords st) k = some e) :
    jsGet (adminLanguages2words st ex).1 k = some e ∧
    ∀ l ∈ getLanguages, (jsGet e l).isSome := by
  constructor
  · cases ex with
    | none => exact h
    | some ex' => exact reconcile_fst_of_isSome ex' (buildNewWords st, []) k e h
  · have hinv : ∀ p ∈ buildNewWords st, ∀ l ∈ getLanguages,
        (jsGet p.2 l).isSome := by
      rw [buildNewWords]
      refine foldl_preserve (P := fun (nw : Dict) => ∀ p ∈ nw,
        ∀ l ∈ getLanguages, (jsGet p.2 l).isSome) ?_ ?_
      · intro nw lang hP
        by_cases hd : st.discovered lang = true
        · rw [if_pos hd]
          cases hf : st.files lang with
          | none => exact hP
          | some translations =>
              refine foldl_preserve (P := fun (nw : Dict) => ∀ p ∈ nw,
                ∀ l ∈ getLanguages, (jsGet p.2 l).isSome) ?_ hP
              intro nw' kv hP' p hp
              rw [words2Step] at hp
              rcases mem_jsSet hp with hpp | hpold
              · rw [hpp]
                dsimp only
                intro l hl
                apply jsGet_jsSet_isSome
                cases hge : jsGet nw' kv.1 with
                | some e0 =>
                    rw [Option.getD_some]
                    exact hP' (kv.1, e0) (jsGet_mem hge) l hl
                | none =>
                    rw [Option.getD_none, createEmptyLangObject]
                    exact jsGet_map_pair_isSome (fun _ => "") getLanguages l hl
              · exact hP' p hpold
        · rw [if_neg hd]
          exact hP
      · intro p hp
        cases hp
    exact hinv (k, e) (jsGet_mem h)

/-- Witness for the amended C7 theorem at a concrete discovered file. -/
theorem buildNewWords_complete_witness :
    jsGet (adminLanguages2words stWordsEx none).1 "k" =
      some [("en", "x"), ("de", ""), ("ru", ""), ("pt", ""), ("nl", ""),
        ("fr", ""), ("it", ""), ("es", ""), ("pl", ""), ("zh-cn", "")] ∧
    (jsGet ([("en", "x"), ("de", ""), ("ru", ""), ("pt", ""), ("nl", ""),
        ("fr", ""), ("it", ""), ("es", ""), ("pl", ""),
        ("zh-cn", "")] : Entry) "zh-cn").isSome = true := by
  have h := buildNewWords_complete stWordsEx none "k"
    [("en", "x"), ("de", ""), ("ru", ""), ("pt", ""), ("nl", ""),
      ("fr", ""), ("it", ""), ("es", ""), ("pl", ""), ("zh-cn", "")]
    (by decide)
  exact ⟨h.1, h.2 "zh-cn" (by decide)⟩

/-- C7, counterexample to the claim as stated: an entry taken verbatim from
the old dictionary during reconciliation can lack languages — here the final
dictionary's entry for `k` has no `en` value at all. -/
theorem adminLanguages2words_incomplete_entry :
    jsGet (adminLanguages2words stEmptyEx
        (some [("k", [("de", "x")])])).1 "k" = some [("de", "x")] ∧
    jsGet ([("de", "x")] : Entry) "en" = none := by decide

/-! ## C3, C4, C8: translateI18n -/

theorem fillLoop_fst (tr : String → String → String) (lang : String) :
    ∀ (base : Obj) (acc : Obj × List (String × String)),
      (fillLoop tr lang acc base).1 = fillFst tr lang acc.1 base := by
  intro base
  induction base with
  | nil => intro acc; rfl
  | cons kv rest ih =>
      intro acc
      rw [fillLoop, List.foldl_cons,
        show List.foldl _ _ rest = fillLoop tr lang _ rest from rfl,
        fillFst, List.foldl_cons,
        show List.foldl _ _ rest = fillFst tr lang _ rest from rfl]
      by_cases h : truthy (jsGet acc.1 kv.1) = true
      · rw [if_pos h, if_pos h, ih]
      · rw [if_neg h, if_neg h, ih]

theorem fillFst_not_mem (tr : String → String → String) (lang : String) :
    ∀ (base : Obj) (c : Obj) (k : String), k ∉ base.map Prod.fst →
      jsGet (fillFst tr lang c base) k = jsGet c k := by
  intro base
  induction base with
  | nil => intro c k _; rfl
  | cons kv rest ih =>
      intro c k hk
      rw [List.map_cons, List.mem_cons, not_or] at hk
      rw [fillFst, List.foldl_cons,
        show List.foldl _ _ rest = fillFst tr lang _ rest from rfl,
        ih _ k hk.2]
      by_cases h : truthy (jsGet c kv.1) = true
      · rw [if_pos h]
      · rw [if_neg h]
        exact jsGet_jsSet_ne c (tr kv.2 lang) (fun he => hk.1 he)

theorem fillFst_mem (tr : String → String → String) (lang : String) :
    ∀ (base : Obj), (base.map Prod.fst).Nodup →
      ∀ (c : Obj) (k : String) (v : String), (k, v) ∈ base →
        jsGet (fillFst tr lang c base) k =
          if truthy (jsGet c k) then jsGet c k else some (tr v lang) := by
  intro base
  induction base with
  | nil => intro _ c k v hv; cases hv
  | cons kv rest ih =>
      intro hnd c k v hv
      rw [List.map_cons, List.nodup_cons] at hnd
      rw [fillFst, List.foldl_cons,
        show List.foldl _ _ rest = fillFst tr lang _ rest from rfl]
      rcases List.mem_cons.mp hv with h | h
      · have hk : kv.1 = k := by rw [← h]
        have hkv : kv.2 = v := by rw [← h]
        have hnotin : k ∉ rest.map Prod.fst := by rw [← hk]; exact hnd.1
        rw [fillFst_not_mem tr lang rest _ k hnotin, hk, hkv]
        by_cases h0 : truthy (jsGet c k) = true
        · rw [if_pos h0, if_pos h0]
        · rw [if_neg h0, if_neg h0]
          exact jsGet_jsSet_self c k (tr v lang)
      · have hne : k ≠ kv.1 := by
          intro he
          apply hnd.1
          rw [← he]
          exact List.mem_map.mpr ⟨(k, v), h, rfl⟩
        rw [ih hnd.2 _ k v h]
        by_cases h0 : truthy (jsGet c kv.1) = true
        · rw [if_pos h0]
        · rw [if_neg h0, jsGet_jsSet_ne c (tr kv.2 lang) hne]

theorem fillLoop_snd (tr : String → String → String) (lang : String) :
    ∀ (base : Obj), (base.map Prod.fst).Nodup →
      ∀ (c : Obj) (cs : List (String × String)),
        (fillLoop tr lang (c, cs) base).2 =
          cs ++ (base.filter (fun kv => !truthy (jsGet c kv.1))).map
            (fun kv => (kv.1, lang)) := by
  intro base
  induction base with
  | nil => intro _ c cs; simp [fillLoop]
  | cons kv rest ih =>
      intro hnd c cs
      rw [List.map_cons, List.nodup_cons] at hnd
      rw [fillLoop, List.foldl_cons,
        show List.foldl _ _ rest = fillLoop tr lang _ rest from rfl]
      by_cases h0 : truthy (jsGet c kv.1) = true
      · rw [if_pos h0, ih hnd.2 c cs, List.filter_cons_of_neg (by simp [h0])]
      · rw [if_neg h0, ih hnd.2 (jsSet c kv.1 (tr kv.2 lang)) (cs ++ [(kv.1, lang)]),
          List.filter_cons_of_pos (by simp [Bool.not_eq_true] at h0 ⊢; exact h0),
          List.filter_congr (fun kv' hkv' => by
            have hne : kv'.1 ≠ kv.1 := by
              intro he
              apply hnd.1
              rw [← he]
              exact List.mem_map.mpr ⟨kv', hkv', rfl⟩
            rw [jsGet_jsSet_ne c (tr kv.2 lang) hne])]
        simp

theorem fillFst_fresh (tr : String → String → String) (lang : String) :
    ∀ (base : Obj), (base.map Prod.fst).Nodup →
      ∀ (c : Obj), (∀ kv ∈ base, jsGet c kv.1 = none) →
        fillFst tr lang c base =
          c ++ base.map (fun kv => (kv.1, tr kv.2 lang)) := by
  intro base
  induction base with
  | nil => intro _ c _; simp [fillFst]
  | cons kv rest ih =>
      intro hnd c hc
      rw [List.map_cons, List.nodup_cons] at hnd
      rw [fillFst, List.foldl_cons,
        show List.foldl _ _ rest = fillFst tr lang _ rest from rfl]
      have h0 : jsGet c kv.1 = none := hc kv (List.mem_cons_self _ _)
      rw [if_neg (by rw [h0]; exact fun hc' => by cases hc')]
      rw [ih hnd.2 (jsSet c kv.1 (tr kv.2 lang)) (fun kv' hkv' => by
        have hne : kv'.1 ≠ kv.1 := by
          intro he
          apply hnd.1
          rw [← he]
          exact List.mem_map.mpr ⟨kv', hkv', rfl⟩
        rw [jsGet_jsSet_ne c (tr kv.2 lang) hne]
        exact hc kv' (List.mem_cons_of_mem _ hkv'))]
      rw [jsSet_of_jsGet_none (tr kv.2 lang) h0]
      simp

theorem fillFst_idem (tr : String → String → String) (lang : String)
    (base : Obj) (hnd : (base.map Prod.fst).Nodup) (c : Obj) :
    fillFst tr lang (fillFst tr lang c base) base =
      fillFst tr lang c base := by
  rw [show fillFst tr lang (fillFst tr lang c base) base =
      List.foldl (fun c kv => if truthy (jsGet c kv.1) then c
        else jsSet c kv.1 (tr kv.2 lang)) (fillFst tr lang c base) base
    from rfl]
  apply foldl_id_of_fix
  intro kv hkv
  have hchar := fillFst_mem tr lang base hnd c kv.1 kv.2 hkv
  by_cases h0 : truthy (jsGet (fillFst tr lang c base) kv.1) = true
  · rw [if_pos h0]
  · rw [if_neg h0]
    apply jsSet_of_jsGet_self
    by_cases h1 : truthy (jsGet c kv.1) = true
    · rw [if_pos h1] at hchar
      rw [hchar] at h0
      exact absurd h1 h0
    · rw [if_neg h1] at hchar
      exact hchar

theorem truthy_isSome {o : Option String} (h : truthy o = true) :
    o.isSome = true := by
  cases o with
  | none => cases h
  | some s => rfl

theorem not_truthy_some {s : String} (h : truthy (some s) = false) :
    s = "" := by
  by_contra hne
  simp [truthy, hne] at h

theorem mem_keys_exists {α : Type} {o : JsObj α} {k : String}
    (h : k ∈ o.map Prod.fst) : ∃ v, (k, v) ∈ o := by
  obtain ⟨p, hp, hk⟩ := List.mem_map.mp h
  exact ⟨p.2, by rw [← hk]; exact hp⟩

theorem translateI18n_run (tr : String → String → String) (st : I18nState)
    (base : Obj) (hen : st.files "en" = some base) :
    translateI18n tr st =
      some (translateI18nFiles tr base st, translateI18nCalls tr base st) := by
  unfold translateI18n
  rw [hen]

theorem translateI18nFiles_en (tr : String → String → String)
    (st : I18nState) (base : Obj) (hen : st.files "en" = some base)
    (hend : st.discovered "en" = true) :
    translateI18nFiles tr base st "en" = some base := by
  unfold translateI18nFiles
  rw [if_pos (by decide : "en" ∈ getLanguages)]
  unfold translateI18nLang
  rw [if_pos hend, hen]
  rfl

theorem translateI18nLang_fst_disc (tr : String → String → String)
    (st : I18nState) (base : Obj) (l : String) (hl : l ≠ "en")
    (hd : st.discovered l = true) (c0 : Obj) (hf : st.files l = some c0) :
    (translateI18nLang tr base st l).1 = fillFst tr l c0 base := by
  unfold translateI18nLang
  rw [if_pos hd, hf]
  show (if l = "en" then (c0, []) else translateI18nJson tr c0 l base).1 = _
  rw [if_neg hl]
  unfold translateI18nJson
  rw [if_neg hl]
  exact fillLoop_fst tr l base (c0, [])

theorem translateI18nLang_fst_miss (tr : String → String → String)
    (st : I18nState) (base : Obj) (l : String) (hl : l ≠ "en")
    (hd : st.discovered l = false) :
    (translateI18nLang tr base st l).1 = fillFst tr l [] base := by
  unfold translateI18nLang
  rw [hd, if_neg (by simp)]
  unfold translateI18nJson
  rw [if_neg hl]
  exact fillLoop_fst tr l base ([], [])

theorem translateI18nLang_snd_en (tr : String → String → String)
    (st : I18nState) (base : Obj) :
    (translateI18nLang tr base st "en").2 = [] := by
  unfold translateI18nLang
  by_cases hd : st.discovered "en" = true
  · rw [if_pos hd]
    cases st.files "en" <;> simp [translateI18nJson]
  · rw [if_neg hd]
    simp [translateI18nJson]

theorem translateI18nLang_snd_disc (tr : String → String → String)
    (st : I18nState) (base : Obj) (l : String) (hl : l ≠ "en")
    (hd : st.discovered l = true) (c0 : Obj) (hf : st.files l = some c0) :
    (translateI18nLang tr base st l).2 = (fillLoop tr l (c0, []) base).2 := by
  unfold translateI18nLang
  rw [if_pos hd, hf]
  show (if l = "en" then (c0, []) else translateI18nJson tr c0 l base).2 = _
  rw [if_neg hl]
  unfold translateI18nJson
  rw [if_neg hl]

theorem translateI18nLang_snd_miss (tr : String → String → String)
    (st : I18nState) (base : Obj) (l : String) (hl : l ≠ "en")
    (hd : st.discovered l = false) :
    (translateI18nLang tr base st l).2 = (fillLoop tr l ([], []) base).2 := by
  unfold translateI18nLang
  rw [hd, if_neg (by simp)]
  unfold translateI18nJson
  rw [if_neg hl]

/-- C3 (amended): after `translateI18n` on a state whose base file is among
the discovered files, every supported language has a file whose key set
CONTAINS the base file's key set, with equality for the languages that had
no discovered file (their file is synthesized from the base alone);
pre-existing files keep any extra keys the base lacks, so equality of key
sets does not hold in general (see the counterexample). -/
theorem translateI18n_keys (tr : String → String → String) (st : I18nState)
    (base : Obj) (hen : st.files "en" = some base)
    (hend : st.discovered "en" = true)
    (hdisc : ∀ l, st.discovered l = true → (st.files l).isSome)
    (hnd : (base.map Prod.fst).Nodup) :
    translateI18n tr st =
      some (translateI18nFiles tr base st, translateI18nCalls tr base st) ∧
    ∀ l ∈ getLanguages, ∃ c, translateI18nFiles tr base st l = some c ∧
      (∀ k ∈ base.map Prod.fst, (jsGet c k).isSome) ∧
      (st.discovered l = false → c.map Prod.fst = base.map Prod.fst) := by
  refine ⟨translateI18n_run tr st base hen, ?_⟩
  intro l hl
  by_cases hle : l = "en"
  · subst hle
    refine ⟨base, translateI18nFiles_en tr st base hen hend, ?_, ?_⟩
    · intro k hk
      exact jsGet_isSome_of_mem_keys hk
    · intro habs
      rw [habs] at hend
  · have hfile : translateI18nFiles tr base st l =
        some (translateI18nLang tr base st l).1 := by
      unfold translateI18nFiles
      rw [if_pos hl]
    by_cases hd : st.discovered l = true
    · obtain ⟨c0, hc0⟩ := Option.isSome_iff_exists.mp (hdisc l hd)
      rw [translateI18nLang_fst_disc tr st base l hle hd c0 hc0] at hfile
      refine ⟨_, hfile, ?_, ?_⟩
      · intro k hk
        obtain ⟨v, hv⟩ := mem_keys_exists hk
        rw [fillFst_mem tr l base hnd c0 k v hv]
        by_cases h0 : truthy (jsGet c0 k) = true
        · rw [if_pos h0]
          exact truthy_isSome h0
        · rw [if_neg h0]
          rfl
      · intro habs
        rw [habs] at hd
        cases hd
    · rw [Bool.not_eq_true] at hd
      rw [translateI18nLang_fst_miss tr st base l hle hd] at hfile
      rw [fillFst_fresh tr l base hnd [] (fun kv _ => rfl)] at hfile
      refine ⟨_, hfile, ?_, ?_⟩
      · intro k hk
        apply jsGet_isSome_of_mem_keys
        simpa using hk
      · intro _
        simp

/-- C8: running `translateI18n` twice with an unchanged base file (the base
file is among the discovered files, so the first run leaves it untouched)
and a deterministic translation capability gives identical file contents on
the second run, and every translation call of the second run is for a key
whose value after the first run is the empty string — never for a key that
already received a non-empty value. -/
theorem translateI18n_idempotent (tr : String → String → String)
    (st : I18nState) (base : Obj) (hen : st.files "en" = some base)
    (hend : st.discovered "en" = true)
    (hdisc : ∀ l, st.discovered l = true → (st.files l).isSome)
    (hnd : (base.map Prod.fst).Nodup) :
    translateI18n tr st =
      some (translateI18nFiles tr base st, translateI18nCalls tr base st) ∧
    translateI18n tr (rerunState tr base st) =
      some (translateI18nFiles tr base (rerunState tr base st),
        translateI18nCalls tr base (rerunState tr base st)) ∧
    (∀ l, translateI18nFiles tr base (rerunState tr base st) l =
      translateI18nFiles tr base st l) ∧
    ∀ kl ∈ translateI18nCalls tr base (rerunState tr base st),
      ∃ c, translateI18nFiles tr base st kl.2 = some c ∧
        jsGet c kl.1 = some "" := by
  have hen2 : (rerunState tr base st).files "en" = some base :=
    translateI18nFiles_en tr st base hen hend
  have hchar : ∀ l ∈ getLanguages, l ≠ "en" →
      ∃ c1, translateI18nFiles tr base st l = some c1 ∧
        fillFst tr l c1 base = c1 := by
    intro l hl hle
    have hfile : translateI18nFiles tr base st l =
        some (translateI18nLang tr base st l).1 := by
      unfold translateI18nFiles
      rw [if_pos hl]
    by_cases hd : st.discovered l = true
    · obtain ⟨c0, hc0⟩ := Option.isSome_iff_exists.mp (hdisc l hd)
      rw [translateI18nLang_fst_disc tr st base l hle hd c0 hc0] at hfile
      exact ⟨_, hfile, fillFst_idem tr l base hnd c0⟩
    · rw [Bool.not_eq_true] at hd
      rw [translateI18nLang_fst_miss tr st base l hle hd] at hfile
      exact ⟨_, hfile, fillFst_idem tr l base hnd []⟩
  refine ⟨translateI18n_run tr st base hen,
    translateI18n_run tr _ base hen2, ?_, ?_⟩
  · intro l
    by_cases hl : l ∈ getLanguages
    · by_cases hle : l = "en"
      · subst hle
        rw [translateI18nFiles_en tr (rerunState tr base st) base hen2 rfl,
          translateI18nFiles_en tr st base hen hend]
      · obtain ⟨c1, hc1, hidem⟩ := hchar l hl hle
        have hf2 : (rerunState tr base st).files l = some c1 := hc1
        have hstep : translateI18nFiles tr base (rerunState tr base st) l =
            some (translateI18nLang tr base (rerunState tr base st) l).1 := by
          unfold translateI18nFiles
          rw [if_pos hl]
        rw [hstep,
          translateI18nLang_fst_disc tr (rerunState tr base st) base l hle rfl
            c1 hf2,
          hidem, hc1]
    · have h2 : translateI18nFiles tr base (rerunState tr base st) l =
          (rerunState tr base st).files l := by
        unfold translateI18nFiles
        rw [if_neg hl]
      rw [h2]
      rfl
  · intro kl hkl
    unfold translateI18nCalls at hkl
    obtain ⟨sub, hsub, hklsub⟩ := List.mem_flatten.mp hkl
    obtain ⟨lang, hlang, hsubeq⟩ := List.mem_map.mp hsub
    rw [← hsubeq] at hklsub
    by_cases hle : lang = "en"
    · subst hle
      rw [translateI18nLang_snd_en] at hklsub
      cases hklsub
    · obtain ⟨c1, hc1, hidem⟩ := hchar lang hlang hle
      have hf2 : (rerunState tr base st).files lang = some c1 := hc1
      rw [translateI18nLang_snd_disc tr (rerunState tr base st) base lang hle
        rfl c1 hf2] at hklsub
      rw [fillLoop_snd tr lang base hnd c1 [], List.nil_append] at hklsub
      obtain ⟨kv, hkvf, hkv⟩ := List.mem_map.mp hklsub
      obtain ⟨hkvbase, hfalsy⟩ := List.mem_filter.mp hkvf
      have hfalsy' : truthy (jsGet c1 kv.1) = false := by
        simpa using hfalsy
      have hval : jsGet c1 kv.1 = some (tr kv.2 lang) := by
        conv_lhs => rw [← hidem]
        rw [fillFst_mem tr lang base hnd c1 kv.1 kv.2 hkvbase,
          if_neg (by rw [hfalsy']; simp)]
      have hempty : tr kv.2 lang = "" := not_truthy_some (hval ▸ hfalsy')
      rw [← hkv]
      refine ⟨c1, hc1, ?_⟩
      rw [hval, hempty]

/-- C3, counterexample to the claim as stated: a pre-existing `de` file with
a key `extra` the base lacks keeps that key, so its key set is a strict
superset of the base's key set after the run. -/
theorem translateI18n_extra_key :
    (translateI18n trEx stC3ex).map (fun p => p.1 "de") =
      some (some [("extra", "x"), ("hello", "Hello@de")]) ∧
    jsGet baseEx "extra" = none ∧
    jsGet ([("extra", "x"), ("hello", "Hello@de")] : Obj) "extra" =
      some "x" := by decide

/-- Witness for the amended C3 theorem at a concrete state. -/
theorem translateI18n_keys_witness :
    ∃ c, translateI18nFiles trEx baseEx stC3ex "de" = some c ∧
      (jsGet c "hello").isSome = true := by
  have h := (translateI18n_keys trEx stC3ex baseEx (by decide) (by decide)
    (by
      intro l hl
      have hor : l = "en" ∨ l = "de" := by
        by_contra hno
        rw [not_or] at hno
        simp only [stC3ex] at hl
        rw [show (l == "en" || l == "de") = false by
          simp [hno.1, hno.2]] at hl
        cases hl
      rcases hor with h | h <;> (subst h; decide))
    (by decide)).2 "de" (by decide)
  obtain ⟨c, hc, hk, -⟩ := h
  exact ⟨c, hc, hk "hello" (by decide)⟩

/-- C4: evaluating the code at the failing input — the base file exists but
is not among the discovered files, so `translateI18n` synthesizes a fresh
empty object for `en` (which `translateI18nJson` leaves empty) and writes it
to the generated `en` filename, which is the base file's own path: the
English base file is overwritten with the empty object. -/
theorem translateI18n_overwrites_base :
    (translateI18n trEx stC4ex).map (fun p => p.1 "en") = some (some []) ∧
    stC4ex.files "en" = some [("hello", "Hello")] := by decide

/-- Witness for the C8 theorem at a concrete state. -/
theorem translateI18n_idempotent_witness :
    translateI18nFiles trEx [("k", "x")]
        (rerunState trEx [("k", "x")] stWordsEx) "de" =
      translateI18nFiles trEx [("k", "x")] stWordsEx "de" := by
  have h := translateI18n_idempotent trEx stWordsEx [("k", "x")] (by decide)
    (by decide)
    (by
      intro l hl
      have he : l = "en" := by
        by_contra hno
        simp only [stWordsEx] at hl
        rw [show (l == "en") = false by simp [hno]] at hl
        cases hl
      subst he; decide)
    (by decide)
  exact h.2.2.1 "de"

/-! ## C5: legacy dictionary codec round trip -/

theorem parseStringBody_cons (c : Char) (rest : StrL) :
    parseStringBody (c :: rest) =
      if c = quoteC then some ([], rest)
      else if c = backslashC then
        match rest with
        | [] => none
        | e :: rest2 =>
            (parseStringBody rest2).map (fun p => (escChar e :: p.1, p.2))
      else if c = '\n' || c = '\r' then none
      else (parseStringBody rest).map (fun p => (c :: p.1, p.2)) := by
  rw [parseStringBody.eq_def]
  simp only []
  rfl

theorem escapeQuotes_id {s : StrL} (h : noQuote s = true) :
    escapeQuotes s = s := by
  induction s with
  | nil => rfl
  | cons c cs ih =>
      rw [noQuote, List.all_cons, Bool.and_eq_true] at h
      rw [escapeQuotes, if_neg (by simpa using h.1), ih h.2]

theorem parseStringBody_escape {s : StrL} (hc : ctrlFree s = true)
    (hb : noBackslash s = true) (rest : StrL) :
    parseStringBody (escapeQuotes s ++ quoteC :: rest) = some (s, rest) := by
  induction s with
  | nil =>
      rw [escapeQuotes, List.nil_append, parseStringBody_cons, if_pos rfl]
  | cons c cs ih =>
      rw [ctrlFree, List.all_cons, Bool.and_eq_true] at hc
      rw [noBackslash, List.all_cons, Bool.and_eq_true] at hb
      have ihr := ih hc.2 hb.2
      by_cases hq : c = quoteC
      · subst hq
        rw [escapeQuotes, if_pos rfl, List.cons_append, List.cons_append,
          parseStringBody_cons, if_neg (by decide), if_pos rfl]
        dsimp only
        rw [ihr]
        rw [show escChar quoteC = quoteC from by decide]
        rfl
      · rw [escapeQuotes, if_neg hq, List.cons_append, parseStringBody_cons,
          if_neg hq, if_neg (by simpa using hb.1),
          if_neg (by
            have h32 : ¬(c.toNat < 32 || c.toNat = 127) = true := by
              simpa using hc.1
            simp only [Bool.or_eq_true, decide_eq_true_eq] at h32 ⊢
            rw [not_or] at h32
            rintro (rfl | rfl) <;> simp at h32)]
        rw [ihr]
        rfl

theorem parseStringBody_plain {s : StrL} (hq : noQuote s = true)
    (hc : ctrlFree s = true) (hb : noBackslash s = true) (rest : StrL) :
    parseStringBody (s ++ quoteC :: rest) = some (s, rest) := by
  rw [show s ++ quoteC :: rest = escapeQuotes s ++ quoteC :: rest from by
    rw [escapeQuotes_id hq]]
  exact parseStringBody_escape hc hb rest

theorem skipWs_past {W : StrL} (hW : ∀ a ∈ W, isJsWs a = true) {c : Char}
    (hc : isJsWs c = false) (X : StrL) :
    skipWs (W ++ c :: X) = c :: X := by
  induction W with
  | nil =>
      rw [List.nil_append, skipWs, List.dropWhile_cons, hc]
      rfl
  | cons a W' ih =>
      rw [List.cons_append, skipWs, List.dropWhile_cons,
        hW a (List.mem_cons_self _ _)]
      exact ih (fun a ha => hW a (List.mem_cons_of_mem _ ha))

theorem skipWs_cons_not {c : Char} (hc : isJsWs c = false) (X : StrL) :
    skipWs (c :: X) = c :: X := by
  have h := skipWs_past (W := []) (by intro a ha; cases ha) hc X
  simpa using h

theorem skipWs_nil : skipWs [] = [] := rfl

theorem dropWhile_ws_append {A : StrL} (hA : ∀ a ∈ A, isJsWs a = true)
    (B : StrL) :
    List.dropWhile isJsWs (A ++ B) = List.dropWhile isJsWs B := by
  induction A with
  | nil => rw [List.nil_append]
  | cons a A' ih =>
      rw [List.cons_append, List.dropWhile_cons, hA a (List.mem_cons_self _ _)]
      exact ih (fun a ha => hA a (List.mem_cons_of_mem _ ha))

theorem parseInner_succ (fuel : Nat) (s : StrL) :
    parseInner (fuel + 1) s =
      match skipWs s with
      | [] => none
      | c :: r =>
          if c = rbrace then some ([], r)
          else if c = quoteC then
            match parseStringBody r with
            | none => none
            | some (k, r1) =>
                match skipWs r1 with
                | [] => none
                | c2 :: r2 =>
                    if c2 = ':' then
                      match skipWs r2 with
                      | [] => none
                      | c3 :: r3 =>
                          if c3 = quoteC then
                            match parseStringBody r3 with
                            | none => none
                            | some (v, r4) =>
                                match skipWs r4 with
                                | [] => none
                                | c5 :: r5 =>
                                    if c5 = ',' then
                                      (parseInner fuel r5).map
                                        (fun p => ((k, v) :: p.1, p.2))
                                    else if c5 = rbrace then
                                      some ([(k, v)], r5)
                                    else none
                          else none
                    else none
          else none := by
  rw [parseInner.eq_def]

theorem parseOuter_succ (fuel : Nat) (s : StrL) :
    parseOuter (fuel + 1) s =
      match skipWs s with
      | [] => none
      | c :: r =>
          if c = rbrace then some ([], r)
          else if c = quoteC then
            match parseStringBody r with
            | none => none
            | some (k, r1) =>
                match skipWs r1 with
                | [] => none
                | c2 :: r2 =>
                    if c2 = ':' then
                      match skipWs r2 with
                      | [] => none
                      | c3 :: r3 =>
                          if c3 = lbrace then
                            match parseInner (r3.length + 1) r3 with
                            | none => none
                            | some (e, r4) =>
                                match skipWs r4 with
                                | [] => none
                                | c5 :: r5 =>
                                    if c5 = ',' then
                                      (parseOuter fuel r5).map
                                        (fun p => ((k, e) :: p.1, p.2))
                                    else if c5 = rbrace then
                                      some ([(k, e)], r5)
                                    else none
                          else none
                    else none
          else none := by
  rw [parseOuter.eq_def]

theorem wordsSeg_eq (lt : StrL × StrL) :
    wordsSeg lt = segChopped lt ++ [','] ++
      List.replicate (50 - (escapeQuotes lt.2 ++ [quoteC, ',']).length) ' ' ++
      [' '] := by
  simp [wordsSeg, segChopped, padRightL]

theorem renderInner_flatten (e : EntryL) :
    ∀ (lt : StrL × StrL), ∃ n,
      (List.map wordsSeg (lt :: e)).flatten =
        renderInner (lt :: e) ++ [','] ++ List.replicate n ' ' ++ [' '] := by
  induction e with
  | nil =>
      intro lt
      refine ⟨50 - (escapeQuotes lt.2 ++ [quoteC, ',']).length, ?_⟩
      rw [List.map_cons, List.map_nil, List.flatten_cons, List.flatten_nil,
        List.append_nil, wordsSeg_eq lt]
      rfl
  | cons lt2 e' ih =>
      intro lt
      obtain ⟨n, hn⟩ := ih lt2
      refine ⟨n, ?_⟩
      rw [List.map_cons, List.flatten_cons, hn,
        show renderInner (lt :: lt2 :: e') =
          wordsSeg lt ++ renderInner (lt2 :: e') from rfl]
      simp [List.append_assoc]

theorem renderInner_head (lt : StrL × StrL) (e : EntryL) :
    ∃ t, renderInner (lt :: e) = quoteC :: t := by
  cases e with
  | nil => exact ⟨_, rfl⟩
  | cons lt2 e' => exact ⟨_, rfl⟩

theorem trimJS_line {R : StrL} (hR : ∃ t, R = quoteC :: t) {W : StrL}
    (hW : ∀ a ∈ W, isJsWs a = true) :
    trimJS (R ++ [','] ++ W) = R ++ [','] := by
  obtain ⟨t, rfl⟩ := hR
  unfold trimJS
  rw [List.append_assoc, List.cons_append]
  rw [show List.dropWhile isJsWs (quoteC :: (t ++ ([','] ++ W))) =
    quoteC :: (t ++ ([','] ++ W)) from skipWs_cons_not (by decide) _]
  rw [show quoteC :: (t ++ ([','] ++ W)) = (quoteC :: t ++ [',']) ++ W from
    by simp]
  rw [List.reverse_append,
    dropWhile_ws_append (fun a ha => hW a (List.mem_reverse.mp ha))]
  rw [List.reverse_append]
  rw [show List.reverse [','] = [','] from rfl, List.singleton_append]
  rw [show List.dropWhile isJsWs (',' :: (quoteC :: t).reverse) =
    ',' :: (quoteC :: t).reverse from skipWs_cons_not (by decide) _]
  rw [List.reverse_cons, List.reverse_reverse]

theorem entryLine_norm (kv : StrL × EntryL) :
    ∃ m, entryLine kv =
      [' ', ' ', ' ', ' '] ++ [quoteC] ++ escapeQuotes kv.1 ++
        [quoteC, ':', ' ', lbrace] ++ List.replicate m ' ' ++
        renderInner kv.2 ++ [rbrace, ','] := by
  obtain ⟨k, e⟩ := kv
  refine ⟨50 - ([quoteC] ++ escapeQuotes k ++
    [quoteC, ':', ' ', lbrace]).length, ?_⟩
  cases e with
  | nil =>
      simp [entryLine, padRightL, renderInner]
  | cons lt e' =>
      obtain ⟨n, hn⟩ := renderInner_flatten e' lt
      obtain ⟨t, ht⟩ := renderInner_head lt e'
      simp only [entryLine]
      rw [hn]
      rw [show (renderInner (lt :: e') ++ [','] ++ List.replicate n ' ' ++
          [' ']).isEmpty = false from by rw [ht]; rfl]
      rw [if_neg (by simp)]
      rw [List.append_assoc (renderInner (lt :: e') ++ [','])]
      rw [trimJS_line ⟨t, ht⟩ (by
        intro a ha
        rcases List.mem_append.mp ha with h | h
        · rw [List.eq_of_mem_replicate h]; rfl
        · rw [List.mem_singleton.mp h]; rfl)]
      rw [List.dropLast_concat]
      simp [padRightL]

theorem parseInner_step (f : Nat) (l v : StrL)
    (hq : noQuote l = true) (hb : noBackslash l = true)
    (hc : ctrlFree l = true) (hvc : ctrlFree v = true)
    (hvb : noBackslash v = true)
    (W : StrL) (hW : ∀ a ∈ W, isJsWs a = true) (TAIL : StrL) :
    parseInner (f + 1)
      (W ++ (quoteC :: (l ++ quoteC :: ':' :: ' ' :: quoteC ::
        (escapeQuotes v ++ quoteC :: TAIL)))) =
      match skipWs TAIL with
      | [] => none
      | c5 :: r5 =>
          if c5 = ',' then
            (parseInner f r5).map (fun p => ((l, v) :: p.1, p.2))
          else if c5 = rbrace then some ([(l, v)], r5)
          else none := by
  rw [parseInner_succ]
  rw [skipWs_past hW (by decide) _]
  dsimp only
  rw [if_neg (by decide), if_pos rfl]
  rw [show l ++ quoteC :: ':' :: ' ' :: quoteC ::
      (escapeQuotes v ++ quoteC :: TAIL) =
    l ++ quoteC :: (':' :: ' ' :: quoteC ::
      (escapeQuotes v ++ quoteC :: TAIL)) from rfl]
  rw [parseStringBody_plain hq hc hb _]
  dsimp only
  rw [skipWs_cons_not (by decide) _]
  dsimp only
  rw [if_pos rfl]
  rw [show skipWs (' ' :: quoteC :: (escapeQuotes v ++ quoteC :: TAIL)) =
    quoteC :: (escapeQuotes v ++ quoteC :: TAIL) from
    skipWs_past (W := [' '])
      (by intro a ha; rw [List.mem_singleton.mp ha]; rfl) (by decide) _]
  dsimp only
  rw [if_pos rfl]
  rw [parseStringBody_escape hvc hvb TAIL]

theorem parseInner_render (e : EntryL) :
    goodEntry e →
    ∀ (fuel : Nat), e.length + 1 ≤ fuel →
    ∀ (W : StrL), (∀ a ∈ W, isJsWs a = true) →
    ∀ (cont : StrL),
      parseInner fuel (W ++ (renderInner e ++ rbrace :: cont)) =
        some (e, cont) := by
  induction e with
  | nil =>
      intro _ fuel hfuel W hW cont
      obtain ⟨f, rfl⟩ : ∃ f, fuel = f + 1 := ⟨fuel - 1, by omega⟩
      rw [show renderInner [] ++ rbrace :: cont = rbrace :: cont from rfl]
      rw [parseInner_succ]
      rw [skipWs_past hW (by decide) cont]
      dsimp only
      rw [if_pos rfl]
  | cons lt e' ih =>
      intro hg fuel hfuel W hW cont
      obtain ⟨f, rfl⟩ : ∃ f, fuel = f + 1 := ⟨fuel - 1, by omega⟩
      obtain ⟨⟨hq, hb, hc⟩, hvc, hvb⟩ := hg lt (List.mem_cons_self _ _)
      cases e' with
      | nil =>
          rw [show W ++ (renderInner [lt] ++ rbrace :: cont) =
            W ++ (quoteC :: (lt.1 ++ quoteC :: ':' :: ' ' :: quoteC ::
              (escapeQuotes lt.2 ++ quoteC :: (rbrace :: cont)))) from by
            simp [renderInner, segChopped]]
          rw [parseInner_step f lt.1 lt.2 hq hb hc hvc hvb W hW
            (rbrace :: cont)]
          rw [skipWs_cons_not (by decide) _]
          dsimp only
          rw [if_neg (by decide), if_pos rfl]
      | cons lt2 rest =>
          rw [show W ++ (renderInner (lt :: lt2 :: rest) ++ rbrace :: cont) =
            W ++ (quoteC :: (lt.1 ++ quoteC :: ':' :: ' ' :: quoteC ::
              (escapeQuotes lt.2 ++ quoteC :: (',' ::
                (List.replicate
                  (50 - (escapeQuotes lt.2 ++ [quoteC, ',']).length) ' ' ++
                  ' ' :: (renderInner (lt2 :: rest) ++ rbrace :: cont))))))
            from by
            rw [show renderInner (lt :: lt2 :: rest) =
              wordsSeg lt ++ renderInner (lt2 :: rest) from rfl]
            simp [wordsSeg, padRightL]]
          rw [parseInner_step f lt.1 lt.2 hq hb hc hvc hvb W hW _]
          rw [skipWs_cons_not (by decide) _]
          dsimp only
          rw [if_pos rfl]
          rw [show List.replicate
              (50 - (escapeQuotes lt.2 ++ [quoteC, ',']).length) ' ' ++
              ' ' :: (renderInner (lt2 :: rest) ++ rbrace :: cont) =
            (List.replicate
              (50 - (escapeQuotes lt.2 ++ [quoteC, ',']).length) ' ' ++
              [' ']) ++ (renderInner (lt2 :: rest) ++ rbrace :: cont) from by
            simp]
          rw [ih (fun p hp => hg p (List.mem_cons_of_mem _ hp)) f
            (by simp at hfuel ⊢; omega)
            _ (by
              intro a ha
              rcases List.mem_append.mp ha with h | h
              · rw [List.eq_of_mem_replicate h]; rfl
              · rw [List.mem_singleton.mp h]; rfl)
            cont]
          rfl

theorem renderInner_length (e : EntryL) : e.length ≤ (renderInner e).length := by
  induction e with
  | nil => exact Nat.le_refl 0
  | cons lt e' ih =>
      cases e' with
      | nil => simp [renderInner, segChopped]
      | cons lt2 rest =>
          rw [show renderInner (lt :: lt2 :: rest) =
            wordsSeg lt ++ renderInner (lt2 :: rest) from rfl]
          rw [List.length_cons, List.length_append]
          have h1 : 1 ≤ (wordsSeg lt).length := by
            simp [wordsSeg, padRightL]
          omega

theorem parseOuter_step (f : Nat) (k : StrL) (e : EntryL)
    (hkc : ctrlFree k = true) (hkb : noBackslash k = true)
    (hge : goodEntry e)
    (W : StrL) (hW : ∀ a ∈ W, isJsWs a = true) (m : Nat) (TAIL : StrL) :
    parseOuter (f + 1)
      (W ++ (quoteC :: (escapeQuotes k ++ quoteC :: ':' :: ' ' :: lbrace ::
        (List.replicate m ' ' ++ (renderInner e ++ rbrace :: TAIL))))) =
      match skipWs TAIL with
      | [] => none
      | c5 :: r5 =>
          if c5 = ',' then
            (parseOuter f r5).map (fun p => ((k, e) :: p.1, p.2))
          else if c5 = rbrace then some ([(k, e)], r5)
          else none := by
  rw [parseOuter_succ]
  rw [skipWs_past hW (by decide) _]
  dsimp only
  rw [if_neg (by decide), if_pos rfl]
  rw [show escapeQuotes k ++ quoteC :: ':' :: ' ' :: lbrace ::
      (List.replicate m ' ' ++ (renderInner e ++ rbrace :: TAIL)) =
    escapeQuotes k ++ quoteC :: (':' :: ' ' :: lbrace ::
      (List.replicate m ' ' ++ (renderInner e ++ rbrace :: TAIL))) from rfl]
  rw [parseStringBody_escape hkc hkb _]
  dsimp only
  rw [skipWs_cons_not (by decide) _]
  dsimp only
  rw [if_pos rfl]
  rw [show skipWs (' ' :: lbrace ::
      (List.replicate m ' ' ++ (renderInner e ++ rbrace :: TAIL))) =
    lbrace :: (List.replicate m ' ' ++ (renderInner e ++ rbrace :: TAIL)) from
    skipWs_past (W := [' '])
      (by intro a ha; rw [List.mem_singleton.mp ha]; rfl) (by decide) _]
  dsimp only
  rw [if_pos rfl]
  rw [parseInner_render e hge
    ((List.replicate m ' ' ++ (renderInner e ++ rbrace :: TAIL)).length + 1)
    (by
      have h1 := renderInner_length e
      simp only [List.length_append, List.length_replicate, List.length_cons]
      omega)
    (List.replicate m ' ')
    (fun a ha => by rw [List.eq_of_mem_replicate ha]; rfl)
    TAIL]

theorem parseOuter_render (d : DictL) :
    goodKeyVals d →
    ∀ (fuel : Nat), d.length + 1 ≤ fuel →
    ∀ (W : StrL), (∀ a ∈ W, isJsWs a = true) →
    ∀ (cont : StrL),
      parseOuter fuel (W ++ (renderEntries d ++ rbrace :: cont)) =
        some (d, cont) := by
  induction d with
  | nil =>
      intro _ fuel hfuel W hW cont
      obtain ⟨f, rfl⟩ : ∃ f, fuel = f + 1 := ⟨fuel - 1, by omega⟩
      rw [show renderEntries [] ++ rbrace :: cont = rbrace :: cont from rfl]
      rw [parseOuter_succ]
      rw [skipWs_past hW (by decide) cont]
      dsimp only
      rw [if_pos rfl]
  | cons kv rest ih =>
      intro hg fuel hfuel W hW cont
      obtain ⟨f, rfl⟩ : ∃ f, fuel = f + 1 := ⟨fuel - 1, by omega⟩
      obtain ⟨⟨hkc, hkb⟩, hge⟩ := hg kv (List.mem_cons_self _ _)
      obtain ⟨m, hm⟩ := entryLine_norm kv
      rw [show W ++ (renderEntries (kv :: rest) ++ rbrace :: cont) =
        (W ++ [' ', ' ', ' ', ' ']) ++
          (quoteC :: (escapeQuotes kv.1 ++ quoteC :: ':' :: ' ' :: lbrace ::
            (List.replicate m ' ' ++ (renderInner kv.2 ++ rbrace ::
              (',' :: ('\n' ::
                (renderEntries rest ++ rbrace :: cont))))))) from by
        rw [show renderEntries (kv :: rest) =
          entryLine kv ++ EOLL ++ renderEntries rest from rfl, hm]
        simp [EOLL]]
      rw [parseOuter_step f kv.1 kv.2 hkc hkb hge (W ++ [' ', ' ', ' ', ' '])
        (by
          intro a ha
          rcases List.mem_append.mp ha with h | h
          · exact hW a h
          · fin_cases h <;> rfl)
        m (',' :: ('\n' :: (renderEntries rest ++ rbrace :: cont)))]
      rw [skipWs_cons_not (by decide) _]
      dsimp only
      rw [if_pos rfl]
      rw [show '\n' :: (renderEntries rest ++ rbrace :: cont) =
        ['\n'] ++ (renderEntries rest ++ rbrace :: cont) from rfl]
      rw [ih (fun p hp => hg p (List.mem_cons_of_mem _ hp)) f
        (by simp at hfuel ⊢; omega)
        ['\n'] (by intro a ha; rw [List.mem_singleton.mp ha]; rfl) cont]
      rfl

theorem joinEOL_append {xs : List StrL} (hxs : xs ≠ []) {ys : List StrL}
    (hys : ys ≠ []) :
    joinEOL (xs ++ ys) = joinEOL xs ++ EOLL ++ joinEOL ys := by
  induction xs with
  | nil => exact absurd rfl hxs
  | cons x xs' ih =>
      cases xs' with
      | nil =>
          cases ys with
          | nil => exact absurd rfl hys
          | cons y ys' => rfl
      | cons x2 xs'' =>
          rw [List.cons_append, List.cons_append,
            show joinEOL (x :: x2 :: (xs'' ++ ys)) =
              x ++ EOLL ++ joinEOL (x2 :: (xs'' ++ ys)) from rfl,
            show joinEOL (x :: x2 :: xs'') =
              x ++ EOLL ++ joinEOL (x2 :: xs'') from rfl]
          rw [← List.cons_append, ih (by simp)]
          simp [List.append_assoc]

theorem joinEOL_entryLines (d : DictL) (hd : d ≠ []) :
    joinEOL (d.map entryLine) ++ EOLL = renderEntries d := by
  induction d with
  | nil => exact absurd rfl hd
  | cons kv rest ih =>
      cases rest with
      | nil =>
          rw [List.map_cons, List.map_nil,
            show joinEOL [entryLine kv] = entryLine kv from rfl,
            show renderEntries [kv] = entryLine kv ++ EOLL ++ renderEntries []
              from rfl]
          simp [renderEntries]
      | cons kv2 rest' =>
          rw [List.map_cons,
            show joinEOL (entryLine kv :: List.map entryLine (kv2 :: rest')) =
              entryLine kv ++ EOLL ++ joinEOL (List.map entryLine (kv2 :: rest'))
              from by rw [List.map_cons]; rfl,
            show renderEntries (kv :: kv2 :: rest') =
              entryLine kv ++ EOLL ++ renderEntries (kv2 :: rest') from rfl]
          rw [← ih (by simp)]
          simp [List.append_assoc]

theorem renderEntries_length (d : DictL) :
    d.length ≤ (renderEntries d).length := by
  induction d with
  | nil => exact Nat.le_refl 0
  | cons kv rest ih =>
      rw [show renderEntries (kv :: rest) =
        entryLine kv ++ EOLL ++ renderEntries rest from rfl]
      simp only [List.length_append, List.length_cons, EOLL,
        List.length_singleton]
      omega

theorem trimEndJS_semi (X : StrL) : trimEndJS (X ++ [';']) = X ++ [';'] := by
  unfold trimEndJS
  rw [List.reverse_append, show List.reverse [';'] = [';'] from rfl,
    List.singleton_append]
  rw [show List.dropWhile isJsWs (';' :: X.reverse) = ';' :: X.reverse from
    skipWs_cons_not (by decide) _]
  rw [List.reverse_cons, List.reverse_reverse]

theorem createWordsJs_shape (d : DictL) :
    createWordsJs d =
      ((joinEOL wordsBanner ++ EOLL ++ "systemDictionary = ".toList) ++
        lbrace :: ('\n' :: (renderEntries d ++ [rbrace]))) ++ [';'] := by
  unfold createWordsJs createWordsJsLines
  rw [show wordsBanner ++ [sysDictOpen] ++ List.map entryLine d ++
      [sysDictClose] =
    wordsBanner ++ ([sysDictOpen] ++
      (List.map entryLine d ++ [sysDictClose])) from by simp]
  rw [joinEOL_append (by simp [wordsBanner]) (by simp)]
  rw [joinEOL_append (by simp) (by simp)]
  rw [show joinEOL [sysDictOpen] = sysDictOpen from rfl]
  cases d with
  | nil =>
      rw [List.map_nil, List.nil_append,
        show joinEOL [sysDictClose] = sysDictClose from rfl]
      rw [show (joinEOL wordsBanner ++ EOLL ++
          (sysDictOpen ++ EOLL ++ sysDictClose)) =
        ((joinEOL wordsBanner ++ EOLL ++ "systemDictionary = ".toList) ++
          lbrace :: ('\n' :: (renderEntries [] ++ [rbrace]))) ++ [';'] from by
        simp [sysDictOpen, sysDictClose, EOLL, renderEntries]]
      rw [trimEndJS_semi]
  | cons kv rest =>
      rw [joinEOL_append (by simp) (by simp)]
      rw [show joinEOL [sysDictClose] = sysDictClose from rfl]
      rw [show joinEOL (List.map entryLine (kv :: rest)) ++ EOLL ++
          sysDictClose =
        (joinEOL (List.map entryLine (kv :: rest)) ++ EOLL) ++ sysDictClose
        from by simp [List.append_assoc]]
      rw [joinEOL_entryLines (kv :: rest) (by simp)]
      rw [show (joinEOL wordsBanner ++ EOLL ++
          (sysDictOpen ++ EOLL ++
            (renderEntries (kv :: rest) ++ sysDictClose))) =
        ((joinEOL wordsBanner ++ EOLL ++ "systemDictionary = ".toList) ++
          lbrace :: ('\n' :: (renderEntries (kv :: rest) ++ [rbrace]))) ++
          [';'] from by
        simp [sysDictOpen, sysDictClose, EOLL]]
      rw [trimEndJS_semi]

theorem dropWhile_to_lbrace {P : StrL} (hP : lbrace ∉ P) (X : StrL) :
    List.dropWhile (· ≠ lbrace) (P ++ lbrace :: X) = lbrace :: X := by
  induction P with
  | nil =>
      rw [List.nil_append, List.dropWhile_cons]
      simp
  | cons p P' ih =>
      rw [List.mem_cons, not_or] at hP
      rw [List.cons_append, List.dropWhile_cons]
      rw [show (decide ¬(p = lbrace)) = true from by
        simpa using fun he => hP.1 he.symm]
      exact ih hP.2

theorem chop_semi (Y : StrL) :
    ((((Y ++ [';']).reverse).dropWhile (· ≠ ';')).drop 1).reverse = Y := by
  rw [List.reverse_append, show List.reverse [';'] = [';'] from rfl,
    List.singleton_append, List.dropWhile_cons]
  simp

theorem evalDictLiteral_render (d : DictL) (hg : goodKeyVals d) :
    evalDictLiteral (lbrace :: ('\n' :: (renderEntries d ++ [rbrace]))) =
      some d := by
  unfold evalDictLiteral
  rw [show skipWs (lbrace :: ('\n' :: (renderEntries d ++ [rbrace]))) =
    lbrace :: ('\n' :: (renderEntries d ++ [rbrace])) from
    skipWs_cons_not (by decide) _]
  dsimp only
  rw [if_pos rfl]
  rw [show '\n' :: (renderEntries d ++ [rbrace]) =
    ['\n'] ++ (renderEntries d ++ rbrace :: []) from rfl]
  rw [parseOuter_render d hg
    ((['\n'] ++ (renderEntries d ++ rbrace :: [])).length + 1)
    (by
      have h1 := renderEntries_length d
      simp only [List.length_append, List.length_cons, List.length_singleton]
      omega)
    ['\n'] (by intro a ha; rw [List.mem_singleton.mp ha]; rfl) []]
  rfl

theorem langs_chars :
    ∀ s ∈ getLanguagesL,
      noQuote s = true ∧ noBackslash s = true ∧ ctrlFree s = true := by
  decide

theorem goodDict_goodKeyVals {d : DictL} (hg : goodDict d) :
    goodKeyVals d := by
  intro kv hkv
  obtain ⟨hk, -, he⟩ := hg.2 kv hkv
  refine ⟨hk, ?_⟩
  intro lt hlt
  obtain ⟨hlang, hvc, hvb⟩ := he lt hlt
  exact ⟨langs_chars lt.1 hlang, hvc, hvb⟩

theorem parseWordJs_createWordsJs (d : DictL) (hg : goodDict d) :
    parseWordJs (createWordsJs d) = some d := by
  rw [createWordsJs_shape d]
  unfold parseWordJs
  rw [show ((joinEOL wordsBanner ++ EOLL ++ "systemDictionary = ".toList) ++
      lbrace :: ('\n' :: (renderEntries d ++ [rbrace]))) ++ [';'] =
    (joinEOL wordsBanner ++ EOLL ++ "systemDictionary = ".toList) ++
      lbrace :: (('\n' :: (renderEntries d ++ [rbrace])) ++ [';']) from by
    simp]
  rw [dropWhile_to_lbrace (by decide) _]
  dsimp only
  rw [show (lbrace :: ('\n' :: (renderEntries d ++ [rbrace]) ++
      [';'])).isEmpty = false from rfl]
  rw [if_neg (by simp)]
  rw [show lbrace :: (('\n' :: (renderEntries d ++ [rbrace])) ++ [';']) =
    (lbrace :: ('\n' :: (renderEntries d ++ [rbrace]))) ++ [';'] from by
    simp]
  rw [chop_semi]
  exact evalDictLiteral_render d (goodDict_goodKeyVals hg)

/-- C5 (amended): for every WordDictionary (a proper JS object whose entries
use the supported language codes) whose keys and values contain no control
characters AND no backslashes, serializing, parsing, and serializing again
is byte-identical to the first serialization; quote characters in keys and
values survive the round trip via escaping.  Backslashes must be excluded:
the serializer escapes only double quotes, so a backslash in a value is
re-interpreted as a JS escape by the parse (see the counterexample). -/
theorem createWordsJs_roundtrip (d : DictL) (hg : goodDict d) :
    (parseWordJs (createWordsJs d)).map createWordsJs =
      some (createWordsJs d) := by
  rw [parseWordJs_createWordsJs d hg]
  rfl

/-- Witness for the amended C5 theorem: a concrete dictionary with an
escaped quote in a value. -/
theorem createWordsJs_roundtrip_witness :
    (parseWordJs (createWordsJs
        [("hello".toList, [("en".toList, "He\"llo".toList)]),
         ("empty".toList, [])])).map createWordsJs =
      some (createWordsJs
        [("hello".toList, [("en".toList, "He\"llo".toList)]),
         ("empty".toList, [])]) :=
  createWordsJs_roundtrip _ (by unfold goodDict; decide)

set_option maxRecDepth 4000 in
/-- C5, counterexample to the claim as stated: the value with a backslash
between `a` and `b` contains no control character, yet its serialized form
parses back as `a` followed by a backspace (the JS escape), so the second
serialization differs from the first. -/
theorem createWordsJs_not_roundtrip :
    ctrlFree "k".toList = true ∧
    ctrlFree ['a', backslashC, 'b'] = true ∧
    (parseWordJs (createWordsJs
        [("k".toList, [("en".toList, ['a', backslashC, 'b'])])])).map
        createWordsJs ≠
      some (createWordsJs
        [("k".toList, [("en".toList, ['a', backslashC, 'b'])])]) := by
  decide
